import Mathlib

/-!
Shallow embedding of the karafun-unlocker KFN container codec and unlock
pipeline (src/karafun_unlocker/main.py), together with theorems settling the
frozen claims about its specification.

Modelling conventions:
* Byte streams are `List Nat` (each element a byte value).  Reads mirror
  Python file-object semantics: `stream.read(n)` returns at most `n` bytes
  (fewer at end of stream) and `struct.unpack` fails when the buffer it is
  handed is too short, which we model by returning `none`.
* Machine integers are `Nat` with explicit `% 2 ^ 32` / `< 2 ^ 32` bounds
  where the Python code manipulates 4-byte words.  `int.to_bytes(4, "little")`
  raises `OverflowError` outside `[0, 2^32)`; the model's `write_word_le`
  is total, and every theorem that relies on serialisation carries the
  corresponding range hypotheses.
* Header tags are kept as their raw 4-byte sequences.  The Python code
  round-trips them through UTF-8 (`header.decode()` when reading,
  `bytes(header, "utf-8")` when writing); UTF-8 is injective on the byte
  strings it accepts, so the byte-level identity model is faithful for every
  tag the Python code accepts (all tags of interest are ASCII).
* The AES-128 block decryption performed by the external `cryptography`
  library is a parameter `D : List Nat → List Nat → List Nat` (key, block ↦
  block) of the model; the ECB chaining, the block buffering performed by
  `CipherContext.update` (partial trailing blocks are retained inside the
  decryptor, not returned and not an error — `finalize`, which would raise
  on a ragged total length, is never called by the source), the truncation
  to the declared plaintext length, and the key handling are modelled
  explicitly from the source.
* The `cp1252` decode/encode pair applied around the song-config rewrite is
  modelled as the identity on byte values: cp1252 maps each of its 251
  defined byte values injectively to a distinct Unicode code point and maps
  ASCII to itself, every character the parser compares against is ASCII,
  and `str.lower` agrees with ASCII lowering on the relevant letters, so
  parsing the decoded text is isomorphic to parsing the raw bytes.  (The
  five byte values cp1252 leaves undefined would make the Python decode
  raise; containers in the theorems below avoid them.)
* The `configparser.ConfigParser` document model is embedded from the
  library's behaviour as exercised by the source: an ordered list of
  sections, each an ordered list of key/value pairs, parsed line by line
  (full-line comments `#`/`;`, blank lines, `[name]` section lines with the
  greedy-regex trailing-`]` rule, `key = value` option lines split at the
  first `=`/`:`, option keys lowercased, strict duplicate detection) and
  re-rendered by `ConfigParser.write` as `[name]` / `key = value` lines
  with a blank line after every section.  Model restrictions, each making
  the model *fail* where the library would do something out of scope:
  continuation (indented) lines, the special `DEFAULT` section, and `%`
  interpolation are not modelled (`parseConfig` rejects indented lines and
  a `DEFAULT` section header; `getint` reads the stored raw value).
-/

namespace KFN

/-! ### Little-endian 4-byte words -/

/-- Little-endian 4-byte encoding of a natural number, as written by
`write_word_le` / `int.to_bytes(4, byteorder="little")`.  For `n < 2 ^ 32`
this is exactly the Python behaviour; Python raises `OverflowError` outside
that range, where the model instead keeps the low 32 bits. -/
def toLE4 (n : Nat) : List Nat :=
  [n % 256, n / 256 % 256, n / 65536 % 256, n / 16777216 % 256]

/-- Little-endian interpretation of a byte list, as in `struct.unpack("I")`
applied to 4 bytes. -/
def fromLE (l : List Nat) : Nat :=
  l.foldr (fun b acc => b + 256 * acc) 0

/-! ### Data model (KFNSubfileType, KFNSubfile, KFNFile) -/

/-- The closed enumeration of subfile types (`class KFNSubfileType(Enum)`). -/
inductive KFNSubfileType where
  | SONG | AUDIO | IMAGE | FONT | VIDEO | MILKDROP | CDG
deriving DecidableEq, Repr

namespace KFNSubfileType

/-- The `.value` of each enumeration member. -/
def toNat : KFNSubfileType → Nat
  | SONG => 1 | AUDIO => 2 | IMAGE => 3 | FONT => 4
  | VIDEO => 5 | MILKDROP => 6 | CDG => 7

/-- `KFNSubfileType(n)`: recover the member from its value, failing with
`ValueError` (here `none`) on an unknown code. -/
def ofNat? : Nat → Option KFNSubfileType
  | 1 => some SONG | 2 => some AUDIO | 3 => some IMAGE | 4 => some FONT
  | 5 => some VIDEO | 6 => some MILKDROP | 7 => some CDG | _ => none

end KFNSubfileType

open KFNSubfileType

/-- A header value is either an unsigned integer (wire flag 1) or a raw byte
buffer (wire flag 2) — the `int | bytes` union in `KFNFile.headers`. -/
inductive HeaderValue where
  | num (n : Nat)
  | buf (b : List Nat)
deriving DecidableEq, Repr

/-- One packed asset (`@dataclass KFNSubfile`). -/
structure KFNSubfile where
  name : List Nat
  ftype : KFNSubfileType
  data : List Nat
  length : Nat
  is_encrypted : Bool
deriving DecidableEq, Repr

/-- The decoded container (`@dataclass KFNFile`).  `headers` is the
insertion-ordered dict `dict[str, int | bytes]`, modelled as an ordered
association list over raw 4-byte tags. -/
structure KFNFile where
  headers : List (List Nat × HeaderValue)
  subfiles : List KFNSubfile
deriving DecidableEq, Repr

/-- Python-dict insertion: an existing key keeps its position and gets the
new value; a fresh key is appended at the end. -/
def dictInsert (m : List (List Nat × HeaderValue)) (k : List Nat) (v : HeaderValue) :
    List (List Nat × HeaderValue) :=
  match m with
  | [] => [(k, v)]
  | (k', v') :: rest =>
      if k' = k then (k, v) :: rest else (k', v') :: dictInsert rest k v

/-- Python-dict lookup (`m[k]` / `k in m`). -/
def assocFind (m : List (List Nat × HeaderValue)) (k : List Nat) : Option HeaderValue :=
  match m with
  | [] => none
  | (k', v') :: rest => if k' = k then some v' else assocFind rest k

/-- The magic signature bytes `b"KFNB"`. -/
def MAGICB : List Nat := [75, 70, 78, 66]

/-- The terminator tag bytes `"ENDH"`. -/
def ENDHtag : List Nat := [69, 78, 68, 72]

/-- The terminator record written by `write_kfn`:
`b"ENDH\x01\xff\xff\xff\xff"`. -/
def ENDHB : List Nat := [69, 78, 68, 72, 1, 255, 255, 255, 255]

/-- The `"FLID"` header tag. -/
def FLIDtag : List Nat := [70, 76, 73, 68]

/-- The `"RGHT"` header tag. -/
def RGHTtag : List Nat := [82, 71, 72, 84]

/-! ### Decoding (`read_kfn`) -/

/-- The header-reading loop of `read_kfn`.  Each iteration reads a 4-byte tag
and a flag byte (`struct.unpack("<4sB", stream.read(5))`, failing if fewer
than 5 bytes remain), then a 4-byte integer (flag 1) or a 4-byte length plus
that many raw bytes (flag 2; like `stream.read`, short at end of stream),
failing on any other flag; the loop stops after reading the `ENDH` record
(whose value is discarded) and otherwise dict-inserts the entry.  The loop
terminates because every iteration consumes at least 9 bytes of the finite
stream; `fuel` (instantiated with more than the stream length by `read_kfn`)
makes that structural. -/
def readHeaders (D : List (List Nat × HeaderValue)) :
    Nat → List Nat → Option (List (List Nat × HeaderValue) × List Nat)
  | 0, _ => none
  | fuel + 1, input =>
      if input.length < 5 then none
      else
        let tag := input.take 4
        let flag := (input.drop 4).headD 0
        let rest := input.drop 5
        if flag = 1 then
          if rest.length < 4 then none
          else
            let v := fromLE (rest.take 4)
            let rest2 := rest.drop 4
            if tag = ENDHtag then some (D, rest2)
            else readHeaders (dictInsert D tag (.num v)) fuel rest2
        else if flag = 2 then
          if rest.length < 4 then none
          else
            let len := fromLE (rest.take 4)
            let rest2 := rest.drop 4
            let data := rest2.take len
            let rest3 := rest2.drop len
            if tag = ENDHtag then some (D, rest3)
            else readHeaders (dictInsert D tag (.buf data)) fuel rest3
        else none

/-- One parsed subfile-index entry: type code, plaintext length, payload
offset, payload (possibly encrypted) length, encryption flag — the tuple
`struct.unpack("IIIII", stream.read(20))`. -/
abbrev MetaTuple := Nat × Nat × Nat × Nat × Nat

/-- The index-reading loop of `read_kfn`: for each of `n` entries read a
4-byte name length, the name bytes (`stream.read`, short at end of stream),
and five 4-byte words (failing if fewer than 20 bytes remain).  Entries are
stored in the Python dict `subfile_info` keyed by name, so a repeated name
keeps its first position but receives the later metadata. -/
def readIndex : Nat → List Nat → List (List Nat × MetaTuple) →
    Option (List (List Nat × MetaTuple) × List Nat)
  | 0, input, acc => some (acc, input)
  | n + 1, input, acc =>
      if input.length < 4 then none
      else
        let nameLen := fromLE (input.take 4)
        let rest := input.drop 4
        let name := rest.take nameLen
        let rest2 := rest.drop nameLen
        if rest2.length < 20 then none
        else
          let m0 := fromLE (rest2.take 4)
          let m1 := fromLE ((rest2.drop 4).take 4)
          let m2 := fromLE ((rest2.drop 8).take 4)
          let m3 := fromLE ((rest2.drop 12).take 4)
          let m4 := fromLE ((rest2.drop 16).take 4)
          readIndex n (rest2.drop 20) (dictInsertM acc name (m0, m1, m2, m3, m4))
where
  /-- Python-dict insertion for the `subfile_info` dict. -/
  dictInsertM (m : List (List Nat × MetaTuple)) (k : List Nat) (v : MetaTuple) :
      List (List Nat × MetaTuple) :=
    match m with
    | [] => [(k, v)]
    | (k', v') :: rest => if k' = k then (k, v) :: rest else (k', v') :: dictInsertM rest k v

/-- The payload-reading loop of `read_kfn`: for each indexed entry, in
insertion order, map the type code through the enumeration (failing on an
unknown code), seek to `subfiles_start + offset` and read
`encrypted_length` bytes (like `stream.read`, short at end of stream).
`body` is the stream suffix starting at `subfiles_start`. -/
def buildSubfiles (body : List Nat) :
    List (List Nat × MetaTuple) → Option (List KFNSubfile)
  | [] => some []
  | (name, (ft, len, off, elen, ienc)) :: rest => do
      let ftype ← KFNSubfileType.ofNat? ft
      let tail ← buildSubfiles body rest
      pure ({ name := name, ftype := ftype, data := (body.drop off).take elen,
              length := len, is_encrypted := ienc ≠ 0 } :: tail)

/-- `read_kfn`: check the `b"KFNB"` magic, read the headers up to `ENDH`,
read the 4-byte subfile count and the index, then read each payload relative
to the post-index stream position. -/
def read_kfn (input : List Nat) : Option KFNFile := do
  if input.length < 4 then none
  else if input.take 4 ≠ MAGICB then none
  else do
    let (hdrs, r1) ← readHeaders [] (input.length + 1) (input.drop 4)
    if r1.length < 4 then none
    else
      let count := fromLE (r1.take 4)
      let (info, body) ← readIndex count (r1.drop 4) []
      let sfs ← buildSubfiles body info
      pure { headers := hdrs, subfiles := sfs }

/-! ### Encoding (`write_kfn`) -/

/-- `write_word_le`: write a 4-byte little-endian word. -/
def write_word_le (n : Nat) : List Nat := toLE4 n

/-- Wire encoding of one header entry: tag bytes, then flag 1 and a 4-byte
integer for `int` values, or flag 2, a 4-byte length and the raw bytes for
buffer values. -/
def writeHeader (h : List Nat × HeaderValue) : List Nat :=
  h.1 ++ (match h.2 with
    | .num n => 1 :: write_word_le n
    | .buf b => 2 :: (write_word_le b.length ++ b))

/-- The subfile-index section written by `write_kfn`: for each subfile a
length-prefixed name, the type code, the declared plaintext length, the
running payload offset (starting at `off`), the current payload length and
the encryption flag. -/
def writeIndex (off : Nat) : List KFNSubfile → List Nat
  | [] => []
  | sf :: rest =>
      write_word_le sf.name.length ++ sf.name ++
      write_word_le sf.ftype.toNat ++ write_word_le sf.length ++
      write_word_le off ++ write_word_le sf.data.length ++
      write_word_le (if sf.is_encrypted then 1 else 0) ++
      writeIndex (off + sf.data.length) rest

/-- `write_kfn`: magic, header records in dict order, the `ENDH` terminator
record, the subfile count, the index with running offsets, then every
payload buffer concatenated in order. -/
def write_kfn (kfn : KFNFile) : List Nat :=
  MAGICB ++ (kfn.headers.flatMap writeHeader) ++ ENDHB ++
  write_word_le kfn.subfiles.length ++ writeIndex 0 kfn.subfiles ++
  kfn.subfiles.flatMap (·.data)


/-! ### Cipher model (`cryptography` AES-128-ECB decryptor) -/

/-- Sixteen zero bytes: `(0).to_bytes(16)`, the all-zero `FLID` sentinel. -/
def zeros16 : List Nat := List.replicate 16 0

/-- ECB chaining of a block operation `D` over consecutive 16-byte blocks.
`fuel` (instantiated with the buffer length) makes the recursion structural;
a trailing fragment shorter than a block is never reached by callers, which
always pass a multiple-of-16 buffer. -/
def ecbGo (D : List Nat → List Nat → List Nat) (key : List Nat) :
    Nat → List Nat → List Nat
  | 0, _ => []
  | fuel + 1, bs =>
      if 16 ≤ bs.length then D key (bs.take 16) ++ ecbGo D key fuel (bs.drop 16) else []

/-- Full ECB decryption of a block-aligned buffer: apply the block operation
to each 16-byte block independently. -/
def ecbChunks (D : List Nat → List Nat → List Nat) (key : List Nat) (bs : List Nat) :
    List Nat :=
  ecbGo D key bs.length bs

/-- Model of `decryptor.update(data)` for the ECB `CipherContext` of the
`cryptography` library: the bytes buffered from earlier calls (`st`) are
prepended, all complete 16-byte blocks of the combined buffer are decrypted
and returned, and the ragged remainder is retained as the new internal
buffer.  `update` never raises on a non-block-multiple input; only
`finalize` (never called by the source) would. -/
def decUpdate (D : List Nat → List Nat → List Nat) (key : List Nat)
    (st data : List Nat) : List Nat × List Nat :=
  let all := st ++ data
  let m := all.length - all.length % 16
  (ecbChunks D key (all.take m), all.drop m)

/-- The decryption loop of `unlock_kfn` step 1: unencrypted subfiles are
skipped; each encrypted subfile's buffer is passed to the one shared
decryptor's `update`, truncated to the declared plaintext length
(`[:subfile.length]`), and the encryption flag is cleared.  The decryptor's
internal buffer threads through the whole loop (one `decryptor` object is
created for the entire container). -/
def decryptList (D : List Nat → List Nat → List Nat) (key : List Nat) :
    List KFNSubfile → List Nat → List KFNSubfile × List Nat
  | [], st => ([], st)
  | sf :: rest, st =>
      if sf.is_encrypted then
        let p := decUpdate D key st sf.data
        let r := decryptList D key rest p.2
        ({ sf with data := p.1.take sf.length, is_encrypted := false } :: r.1, r.2)
      else
        let r := decryptList D key rest st
        (sf :: r.1, r.2)

/-- Failure modes of `unlock_kfn`: `keyError` is the `KeyError` raised by
`kfn.headers["FLID"]` on a missing tag; `badKey` covers
`algorithms.AES128(key)` rejecting a key that is not a 16-byte buffer;
`parseError` is any `configparser` parsing error; `malformedEffect` is a
failing `config.getint(section, "id")` (missing key or non-integer value). -/
inductive UnlockError where
  | keyError | badKey | parseError | malformedEffect
deriving DecidableEq, Repr

instance {e a : Type} [DecidableEq e] [DecidableEq a] : DecidableEq (Except e a)
  | .error x, .error y =>
      if h : x = y then .isTrue (by rw [h]) else .isFalse (by intro hc; cases hc; exact h rfl)
  | .error _, .ok _ => .isFalse (by intro hc; cases hc)
  | .ok _, .error _ => .isFalse (by intro hc; cases hc)
  | .ok x, .ok y =>
      if h : x = y then .isTrue (by rw [h]) else .isFalse (by intro hc; cases hc; exact h rfl)

/-- Step 1 of `unlock_kfn` (decryption stage): look up `FLID` (raising
`KeyError` when absent); when its value is not the 16 zero bytes, build the
AES-128-ECB decryptor (failing unless the key is a 16-byte buffer), zero out
`FLID`, and run the decryption loop over the subfiles; when it is already
the zero sentinel, do nothing. -/
def step1 (D : List Nat → List Nat → List Nat) (kfn : KFNFile) :
    Except UnlockError KFNFile :=
  match assocFind kfn.headers FLIDtag with
  | none => .error .keyError
  | some v =>
      if v = HeaderValue.buf zeros16 then .ok kfn
      else
        match v with
        | .num _ => .error .badKey
        | .buf key =>
            if key.length = 16 then
              .ok { headers := dictInsert kfn.headers FLIDtag (.buf zeros16),
                    subfiles := (decryptList D key kfn.subfiles []).1 }
            else .error .badKey

/-- Step 2 of `unlock_kfn` (rights stage): if a `RGHT` entry exists,
overwrite its value with the integer 0; otherwise do nothing. -/
def step2 (kfn : KFNFile) : KFNFile :=
  if (assocFind kfn.headers RGHTtag).isSome then
    { kfn with headers := dictInsert kfn.headers RGHTtag (.num 0) }
  else kfn

/-! ### ConfigParser document model -/

/-- One parsed section: its case-preserved name and its ordered key/value
pairs (keys already lowercased by the parser's `optionxform`). -/
structure ConfigSection where
  name : List Nat
  items : List (List Nat × List Nat)
deriving DecidableEq, Repr

/-- Python `str.isspace` for the characters `strip` removes. -/
def isSpaceB (c : Nat) : Bool :=
  c == 32 || c == 9 || c == 10 || c == 13 || c == 11 || c == 12

/-- `str.lstrip()` on bytes. -/
def lstripB : List Nat → List Nat
  | [] => []
  | c :: rest => if isSpaceB c then lstripB rest else c :: rest

/-- `str.rstrip()` on bytes. -/
def rstripB (l : List Nat) : List Nat := (lstripB l.reverse).reverse

/-- `str.strip()` on bytes. -/
def stripB (l : List Nat) : List Nat := rstripB (lstripB l)

/-- ASCII lowering of one byte (`str.lower` restricted to the byte range;
cp1252's non-ASCII letters never lower onto the ASCII letters the parser
compares against). -/
def lowerB (c : Nat) : Nat := if 65 ≤ c ∧ c ≤ 90 then c + 32 else c

/-- `str.lower()` on bytes. -/
def lowerBytes (l : List Nat) : List Nat := l.map lowerB

/-- Line iteration of the in-memory stream: split on the newline byte. -/
def splitLines : List Nat → List (List Nat)
  | [] => [[]]
  | c :: rest =>
      if c = 10 then [] :: splitLines rest
      else
        match splitLines rest with
        | [] => [[c]]
        | l :: ls => (c :: l) :: ls

/-- Parser state: the committed sections in order, plus the currently open
section (the last `[name]` seen). -/
structure PState where
  done : List ConfigSection
  cur : Option ConfigSection
deriving DecidableEq, Repr

/-- The document a parser state denotes: committed sections followed by the
open one. -/
def finishP (st : PState) : List ConfigSection := st.done ++ st.cur.toList

/-- The section names already present (for strict duplicate detection). -/
def namesP (st : PState) : List (List Nat) := (finishP st).map ConfigSection.name

/-- The special section name `"DEFAULT"`. -/
def DEFAULTB : List Nat := [68, 69, 70, 65, 85, 76, 84]

/-- The option key `"id"`. -/
def idB : List Nat := [105, 100]

/-- Index of the last `]` in a line — the end of the greedy
`\x5b(?P<header>.+)\x5d` section-header match. -/
def lastClose : List Nat → Option Nat
  | [] => none
  | c :: rest =>
      match lastClose rest with
      | some i => some (i + 1)
      | none => if c = 93 then some 0 else none

/-- Handle a section-header line `[name]`: reject the `DEFAULT` name (out of
the model's scope) and duplicates (strict mode), commit the open section and
open a fresh one. -/
def pSection (st : PState) (name : List Nat) : Option PState :=
  if name = DEFAULTB then none
  else if name ∈ namesP st then none
  else some { done := finishP st, cur := some { name := name, items := [] } }

/-- Handle an option line: require an open section
(`MissingSectionHeaderError` otherwise), split at the first `=` or `:`
(`ParsingError` when there is none), right-strip and lowercase the key
(rejecting an empty key and, in strict mode, a duplicate), strip the value. -/
def pOption (st : PState) (l : List Nat) : Option PState :=
  match st.cur with
  | none => none
  | some sec =>
      match l.findIdx? (fun c => c == 61 || c == 58) with
      | none => none
      | some d =>
          let key := lowerBytes (rstripB (l.take d))
          if key.isEmpty then none
          else if key ∈ sec.items.map Prod.fst then none
          else
            some { st with
              cur := some { sec with items := sec.items ++ [(key, stripB (l.drop (d + 1)))] } }

/-- Process one line of `ConfigParser._read`: skip blank lines and full-line
comments; reject indented continuation lines (outside the model's scope);
recognise a section header when the stripped line starts with `\x5b` and the
greedy match finds a `\x5d` leaving a non-empty name; otherwise treat the
line as an option line. -/
def pLine (st : PState) (line : List Nat) : Option PState :=
  let l := stripB line
  if l.isEmpty then some st
  else if l.headD 0 = 35 ∨ l.headD 0 = 59 then some st
  else if isSpaceB (line.headD 0) then none
  else if l.headD 0 = 91 then
    match lastClose l with
    | some i => if 2 ≤ i then pSection st ((l.drop 1).take (i - 1)) else pOption st l
    | none => pOption st l
  else pOption st l

/-- `ConfigParser.read_string`: fold the line handler over the lines of the
document. -/
def parseConfig (bs : List Nat) : Option (List ConfigSection) :=
  ((splitLines bs).foldlM pLine { done := [], cur := none }).map finishP

/-- The fixed valid-effect-id set `VALID_EFFECT_IDS`. -/
def VALID_EFFECT_IDS : List Int := [1, 2, 21, 51, 53, 61, 62]

/-- Digit run check for `int()`. -/
def allDigits (l : List Nat) : Bool := l.all (fun c => 48 ≤ c && c ≤ 57)

/-- Decimal value of a digit run. -/
def digitsToNat (l : List Nat) : Nat := l.foldl (fun acc c => 10 * acc + (c - 48)) 0

/-- Python `int(string)`: strip whitespace, optional sign, then a non-empty
run of decimal digits.  (Underscore digit separators and non-ASCII digits,
which Python would also accept, are outside the model.) -/
def parseIntB (l : List Nat) : Option Int :=
  match stripB l with
  | 43 :: rest => if rest ≠ [] ∧ allDigits rest then some (digitsToNat rest) else none
  | 45 :: rest => if rest ≠ [] ∧ allDigits rest then some (-(digitsToNat rest : Int)) else none
  | s => if s ≠ [] ∧ allDigits s then some (digitsToNat s) else none

/-- `section.lower().startswith("eff")`. -/
def effName (n : List Nat) : Bool := [101, 102, 102].isPrefixOf (lowerBytes n)

/-- Lookup in a section's option dict. -/
def itemFind (items : List (List Nat × List Nat)) (k : List Nat) : Option (List Nat) :=
  match items with
  | [] => none
  | (k', v) :: rest => if k' = k then some v else itemFind rest k

/-- Lookup a section by name. -/
def findSec (doc : List ConfigSection) (n : List Nat) : Option ConfigSection :=
  match doc with
  | [] => none
  | s :: rest => if s.name = n then some s else findSec rest n

/-- `config.getint(n, "id")`: find the section, read the raw stored value of
key `"id"` and convert it with `int()`; `none` on any failure.  (`%`
interpolation, which `get` would apply first, is outside the model — it is
the identity on every value free of `%`.) -/
def getintId (doc : List ConfigSection) (n : List Nat) : Option Int := do
  let s ← findSec doc n
  let v ← itemFind s.items idB
  parseIntB v

/-- The id of a section read from its own items (used to state theorems). -/
def getSecId (s : ConfigSection) : Option Int := do
  let v ← itemFind s.items idB
  parseIntB v

/-- `del config[section]`: remove the (unique) section with that name. -/
def delSection (doc : List ConfigSection) (n : List Nat) : List ConfigSection :=
  match doc with
  | [] => []
  | s :: rest => if s.name = n then rest else s :: delSection rest n

/-- The effect-filtering loop of `unlock_kfn` step 3, iterating over the
snapshot of section names taken by `config.sections()`: a section whose
name does not start (case-insensitively) with `"eff"` is skipped; otherwise
`getint(section, "id")` is read (its failure aborting the whole rewrite) and
the section is deleted unless the id is in `VALID_EFFECT_IDS`. -/
def roiGo : List (List Nat) → List ConfigSection → Except UnlockError (List ConfigSection)
  | [], doc => .ok doc
  | n :: rest, doc =>
      if ¬ effName n then roiGo rest doc
      else
        match getintId doc n with
        | none => .error .malformedEffect
        | some i =>
            if i ∈ VALID_EFFECT_IDS then roiGo rest doc
            else roiGo rest (delSection doc n)

/-- The whole effect-filtering pass over one parsed document. -/
def removeInvalidEffects (doc : List ConfigSection) :
    Except UnlockError (List ConfigSection) :=
  roiGo (doc.map ConfigSection.name) doc

/-- `ConfigParser.write`'s `value.replace` of a newline by newline-tab in a
rendered value. -/
def replTab (v : List Nat) : List Nat := v.flatMap (fun c => if c = 10 then [10, 9] else [c])

/-- One rendered option line `key = value`. -/
def itemLine (k v : List Nat) : List Nat := k ++ (32 :: 61 :: 32 :: replTab v)

/-- The lines `ConfigParser.write` emits for one section: the header line,
one line per option, and a trailing blank line. -/
def sectionLines (s : ConfigSection) : List (List Nat) :=
  (91 :: (s.name ++ [93])) :: (s.items.map (fun p => itemLine p.1 p.2) ++ [[]])

/-- All rendered lines of a document. -/
def renderLines (doc : List ConfigSection) : List (List Nat) := doc.flatMap sectionLines

/-- Join lines, terminating each with a newline. -/
def joinLines (ls : List (List Nat)) : List Nat := ls.flatMap (fun l => l ++ [10])

/-- `ConfigParser.write` to a string: the concatenation of all rendered
lines. -/
def renderConfig (doc : List ConfigSection) : List Nat := joinLines (renderLines doc)

/-- Step 3 of `unlock_kfn` applied to one subfile: non-SONG subfiles are
untouched; a SONG subfile's payload is parsed, effect-filtered, re-rendered,
and its declared plaintext length updated to the new buffer's length. -/
def rewriteSong (sf : KFNSubfile) : Except UnlockError KFNSubfile :=
  if sf.ftype ≠ KFNSubfileType.SONG then .ok sf
  else
    match parseConfig sf.data with
    | none => .error .parseError
    | some doc =>
        match removeInvalidEffects doc with
        | .error e => .error e
        | .ok doc2 =>
            let out := renderConfig doc2
            .ok { sf with data := out, length := out.length }

/-- Step 3 of `unlock_kfn` (effect-filtering stage) over the container. -/
def step3 (kfn : KFNFile) : Except UnlockError KFNFile := do
  let sfs ← kfn.subfiles.mapM rewriteSong
  pure { kfn with subfiles := sfs }

/-- `unlock_kfn`: the three stages in order — decryption, rights reset,
effect filtering — over a decoded container, propagating stage failures. -/
def unlock_kfn (D : List Nat → List Nat → List Nat) (kfn : KFNFile) :
    Except UnlockError KFNFile := do
  let a ← step1 D kfn
  step3 (step2 a)

/-- The per-subfile effect of the decryption stage under key `key` (proved
below to characterise `step1` when every encrypted buffer is block-aligned):
an encrypted subfile's buffer becomes the first `length` bytes of its full
ECB decryption and its flag is cleared; others are untouched. -/
def unlockSf (D : List Nat → List Nat → List Nat) (key : List Nat) (sf : KFNSubfile) :
    KFNSubfile :=
  if sf.is_encrypted then
    { sf with data := (ecbChunks D key sf.data).take sf.length, is_encrypted := false }
  else sf

/-- A concrete stand-in for the AES-128 block decryption in witnesses: add
one to every byte. -/
def exD : List Nat → List Nat → List Nat := fun _ b => b.map (fun c => (c + 1) % 256)

/-- A concrete non-zero 16-byte key. -/
def exKey : List Nat := List.replicate 15 0 ++ [7]

/-- The retention predicate the effect-filtering loop implements: a section
is kept iff its name does not start (case-insensitively) with `"eff"`, or
its `"id"` value parses to a member of `VALID_EFFECT_IDS`. -/
def keepSec (s : ConfigSection) : Bool :=
  !effName s.name ||
    (match getSecId s with
     | some i => decide (i ∈ VALID_EFFECT_IDS)
     | none => false)

/-- One subfile-index entry as laid out on the wire (decoded field by
field). -/
structure IndexEntry where
  name : List Nat
  ftypeCode : Nat
  plen : Nat
  off : Nat
  elen : Nat
  enc : Nat
deriving DecidableEq, Repr

/-- The wire bytes of one index entry: length-prefixed name, then type code,
plaintext length, payload offset, payload length and encryption flag. -/
def entryBytes (e : IndexEntry) : List Nat :=
  write_word_le e.name.length ++ e.name ++ write_word_le e.ftypeCode ++
  write_word_le e.plen ++ write_word_le e.off ++ write_word_le e.elen ++
  write_word_le e.enc

/-- The subfile the decoder constructs for one index entry: the payload is
obtained by seeking to the entry offset relative to the body base and
reading the payload length (short at end of stream, like `stream.read`). -/
def entrySubfile (body : List Nat) (e : IndexEntry) : KFNSubfile :=
  { name := e.name,
    ftype := (KFNSubfileType.ofNat? e.ftypeCode).getD KFNSubfileType.SONG,
    data := (body.drop e.off).take e.elen,
    length := e.plen,
    is_encrypted := e.enc ≠ 0 }

/-- A concrete well-formed container for the round-trip witness. -/
def exC1 : KFNFile :=
  { headers := [(FLIDtag, HeaderValue.buf zeros16), (RGHTtag, HeaderValue.num 1),
                ([68, 73, 70, 77], HeaderValue.num 7)],
    subfiles := [{ name := [97, 46, 105, 110, 105], ftype := KFNSubfileType.SONG,
                   data := [91, 65, 93, 10], length := 4, is_encrypted := false },
                 { name := [98], ftype := AUDIO,
                   data := [1, 2, 3], length := 3, is_encrypted := false }] }

/-- The spec's example document: `\x5bEff1\x5d id=1`, `\x5bEFF2\x5d id=999`,
`\x5bVerse\x5d` with no id key. -/
def exDoc3 : List ConfigSection :=
  [{ name := [69, 102, 102, 49], items := [([105, 100], [49])] },
   { name := [69, 70, 70, 50], items := [([105, 100], [57, 57, 57])] },
   { name := [86, 101, 114, 115, 101], items := [([120], [121])] }]

/-- Two concrete index entries with distinct names for the C8 witness; the
second one's payload window runs past the end of the body. -/
def exEntryA : IndexEntry :=
  { name := [97], ftypeCode := 2, plen := 2, off := 0, elen := 2, enc := 0 }

/-- See `exEntryA`. -/
def exEntryB : IndexEntry :=
  { name := [98], ftypeCode := 3, plen := 5, off := 2, elen := 5, enc := 0 }

/-- Shape of an option key as the parser stores it: non-empty, free of
delimiters and newlines, already lowercased and right-stripped, with a
head that is not whitespace or a comment character. -/
def WFkey (k : List Nat) : Prop :=
  k ≠ [] ∧ (∀ c ∈ k, c ≠ 61 ∧ c ≠ 58 ∧ c ≠ 10) ∧
  lowerBytes k = k ∧ rstripB k = k ∧
  (∀ c, k.head? = some c → isSpaceB c = false ∧ c ≠ 35 ∧ c ≠ 59)

/-- Shape of an option value as the parser stores it: newline-free and
stripped on both sides. -/
def WFval (v : List Nat) : Prop := 10 ∉ v ∧ lstripB v = v ∧ rstripB v = v

/-- Shape of a stored key/value pair, including the guarantee that its
rendered line cannot be mistaken for a section header (when the key starts
with `\x5b`, no `\x5d` occurs at line position 2 or later). -/
def WFitem (k v : List Nat) : Prop :=
  WFkey k ∧ WFval v ∧ (k.head? = some 91 → 93 ∉ k.drop 2 ∧ 93 ∉ v)

/-- Shape of a parsed section. -/
def WFsec (s : ConfigSection) : Prop :=
  s.name ≠ [] ∧ 10 ∉ s.name ∧ s.name ≠ DEFAULTB ∧
  (s.items.map Prod.fst).Nodup ∧ ∀ p ∈ s.items, WFitem p.1 p.2

/-- Shape of a parsed document. -/
def WFdoc (doc : List ConfigSection) : Prop :=
  (doc.map ConfigSection.name).Nodup ∧ ∀ s ∈ doc, WFsec s

/-- Invariant of the parser state: distinct section names, all sections
well-formed. -/
def WFstate (st : PState) : Prop :=
  (namesP st).Nodup ∧ ∀ s ∈ finishP st, WFsec s

/-- Concrete config text for the C7 witness:
`\x5bEff1\x5d id=1 foo = Bar / \x5bEFF2\x5d id = 999 / \x5bVerse\x5d x: y`. -/
def exText7 : List Nat :=
  [91, 69, 102, 102, 49, 93, 10] ++ [105, 100, 61, 49, 10] ++
  [102, 111, 111, 32, 61, 32, 66, 97, 114, 10] ++ [91, 69, 70, 70, 50, 93, 10] ++
  [105, 100, 32, 61, 32, 57, 57, 57, 10] ++ [91, 86, 101, 114, 115, 101, 93, 10] ++
  [120, 58, 32, 121, 10]

/-- The parse of `exText7`. -/
def exDoc7 : List ConfigSection :=
  [{ name := [69, 102, 102, 49],
     items := [([105, 100], [49]), ([102, 111, 111], [66, 97, 114])] },
   { name := [69, 70, 70, 50], items := [([105, 100], [57, 57, 57])] },
   { name := [86, 101, 114, 115, 101], items := [([120], [121])] }]

/-- The effect-filtered form of `exDoc7` (the invalid `EFF2` removed). -/
def exDoc7f : List ConfigSection :=
  [{ name := [69, 102, 102, 49],
     items := [([105, 100], [49]), ([102, 111, 111], [66, 97, 114])] },
   { name := [86, 101, 114, 115, 101], items := [([120], [121])] }]

/-- A concrete container exercising all three unlock stages for the C4
witness: a non-zero key, one encrypted subfile, a rights flag and a SONG
config with an invalid effect section. -/
def exC4 : KFNFile :=
  { headers := [(FLIDtag, HeaderValue.buf exKey), (RGHTtag, HeaderValue.num 1)],
    subfiles := [{ name := [97], ftype := KFNSubfileType.SONG, data := exText7,
                   length := 52, is_encrypted := false },
                 { name := [98], ftype := AUDIO,
                   data := List.replicate 32 5, length := 20, is_encrypted := true }] }

/-- The unlock of `exC4` under the concrete block operation `exD`. -/
def exC4u : KFNFile :=
  { headers := [(FLIDtag, HeaderValue.buf zeros16), (RGHTtag, HeaderValue.num 0)],
    subfiles := [{ name := [97], ftype := KFNSubfileType.SONG,
                   data := renderConfig exDoc7f,
                   length := (renderConfig exDoc7f).length, is_encrypted := false },
                 { name := [98], ftype := AUDIO,
                   data := List.replicate 20 6, length := 20, is_encrypted := false }] }

/-- The metadata tuples produced by decoding the index that `write_kfn`
writes for `sfs` starting at running offset `off`, keyed by name and in
order. -/
def metaOf (off : Nat) : List KFNSubfile → List (List Nat × MetaTuple)
  | [] => []
  | sf :: rest =>
      (sf.name, (sf.ftype.toNat, sf.length, off, sf.data.length,
        if sf.is_encrypted then 1 else 0)) :: metaOf (off + sf.data.length) rest

/-! ### Well-formedness of containers (the spec's data-model invariants) -/

/-- Range invariant for a header value: an unsigned 32-bit integer, or a
buffer whose length fits in 32 bits. -/
def WFvalue : HeaderValue → Prop
  | .num n => n < 2 ^ 32
  | .buf b => b.length < 2 ^ 32

instance : (v : HeaderValue) → Decidable (WFvalue v)
  | .num n => inferInstanceAs (Decidable (n < 2 ^ 32))
  | .buf b => inferInstanceAs (Decidable (b.length < 2 ^ 32))

/-- Data-model invariant for one header entry: a 4-byte tag distinct from the
terminator, holding a well-ranged value. -/
def WFheader (p : List Nat × HeaderValue) : Prop :=
  p.1.length = 4 ∧ p.1 ≠ ENDHtag ∧ WFvalue p.2

instance (p : List Nat × HeaderValue) : Decidable (WFheader p) := by
  unfold WFheader; exact inferInstance

/-- Data-model invariant for a container: well-formed header entries with
distinct tags (it is a mapping), subfile names distinct (they key the
decoder's index dict) with 32-bit name and declared lengths, a 32-bit
subfile count, and a body that fits in 32-bit offsets. -/
def WFkfn (c : KFNFile) : Prop :=
  (∀ p ∈ c.headers, WFheader p) ∧
  (c.headers.map Prod.fst).Nodup ∧
  (∀ sf ∈ c.subfiles, sf.name.length < 2 ^ 32 ∧ sf.length < 2 ^ 32) ∧
  (c.subfiles.map KFNSubfile.name).Nodup ∧
  c.subfiles.length < 2 ^ 32 ∧
  (c.subfiles.map (fun sf => sf.data.length)).sum < 2 ^ 32

instance (c : KFNFile) : Decidable (WFkfn c) := by
  unfold WFkfn; exact inferInstance

/-! ### Basic word and enumeration lemmas -/

theorem toLE4_length (n : Nat) : (toLE4 n).length = 4 := rfl

theorem fromLE_toLE4 (n : Nat) (h : n < 4294967296) : fromLE (toLE4 n) = n := by
  simp only [toLE4, fromLE, List.foldr]
  omega

theorem KFNSubfileType.ofNat?_toNat (t : KFNSubfileType) :
    KFNSubfileType.ofNat? t.toNat = some t := by
  cases t <;> rfl

/-! ### Round trip: headers -/

theorem dictInsert_fresh (m : List (List Nat × HeaderValue)) (k : List Nat) (v : HeaderValue)
    (h : ∀ p ∈ m, p.1 ≠ k) : dictInsert m k v = m ++ [(k, v)] := by
  induction m with
  | nil => rfl
  | cons p rest ih =>
      simp only [dictInsert]
      rw [if_neg (h p (by simp))]
      simp [ih fun q hq => h q (by simp [hq])]

theorem readHeaders_endh (acc : List (List Nat × HeaderValue)) (f : Nat) (rest : List Nat) :
    readHeaders acc (f + 1) (ENDHB ++ rest) = some (acc, rest) := by
  simp [readHeaders, ENDHB, ENDHtag]

theorem write_word_le_length (n : Nat) : (write_word_le n).length = 4 := rfl

theorem fromLE_write_word_le (n : Nat) (h : n < 2 ^ 32) : fromLE (write_word_le n) = n :=
  fromLE_toLE4 n (by omega)

theorem readHeaders_step_num (acc : List (List Nat × HeaderValue)) (f : Nat)
    (t : List Nat) (n : Nat) (rest : List Nat)
    (h4 : t.length = 4) (hn : n < 2 ^ 32) (hne : t ≠ ENDHtag) :
    readHeaders acc (f + 1) (t ++ 1 :: (write_word_le n ++ rest)) =
      readHeaders (dictInsert acc t (.num n)) f rest := by
  have hlen : ¬ (t ++ 1 :: (write_word_le n ++ rest)).length < 5 := by
    simp only [List.length_append, List.length_cons, write_word_le, toLE4, h4]
    omega
  have e3 : (t ++ 1 :: (write_word_le n ++ rest)).drop 5 = write_word_le n ++ rest := by
    have h : t ++ 1 :: (write_word_le n ++ rest) =
        (t ++ [1]) ++ (write_word_le n ++ rest) := by simp
    rw [h, List.drop_left' (by simp [h4])]
  simp only [readHeaders]
  rw [if_neg hlen, e3, List.take_left' h4, List.drop_left' h4]
  simp only [List.headD_cons, reduceIte]
  rw [if_neg (by simp [write_word_le, toLE4]),
    List.take_left' (write_word_le_length n), List.drop_left' (write_word_le_length n),
    fromLE_write_word_le n hn, if_neg hne]

theorem readHeaders_step_buf (acc : List (List Nat × HeaderValue)) (f : Nat)
    (t : List Nat) (b : List Nat) (rest : List Nat)
    (h4 : t.length = 4) (hb : b.length < 2 ^ 32) (hne : t ≠ ENDHtag) :
    readHeaders acc (f + 1) (t ++ 2 :: (write_word_le b.length ++ (b ++ rest))) =
      readHeaders (dictInsert acc t (.buf b)) f rest := by
  have hlen : ¬ (t ++ 2 :: (write_word_le b.length ++ (b ++ rest))).length < 5 := by
    simp only [List.length_append, List.length_cons, write_word_le, toLE4, h4]
    omega
  have e3 : (t ++ 2 :: (write_word_le b.length ++ (b ++ rest))).drop 5 =
      write_word_le b.length ++ (b ++ rest) := by
    have h : t ++ 2 :: (write_word_le b.length ++ (b ++ rest)) =
        (t ++ [2]) ++ (write_word_le b.length ++ (b ++ rest)) := by simp
    rw [h, List.drop_left' (by simp [h4])]
  simp only [readHeaders]
  rw [if_neg hlen, e3, List.take_left' h4, List.drop_left' h4]
  simp only [List.headD_cons, reduceIte]
  rw [if_neg (by simp [write_word_le, toLE4]),
    List.take_left' (write_word_le_length b.length),
    List.drop_left' (write_word_le_length b.length),
    fromLE_write_word_le b.length hb, List.take_left b (rest), List.drop_left b (rest),
    if_neg hne]
  rw [if_neg (by simp only [List.length_append, write_word_le, toLE4, List.length_cons,
    List.length_nil]; omega)]

theorem readHeaders_encode (hdrs : List (List Nat × HeaderValue)) :
    ∀ (acc : List (List Nat × HeaderValue)) (fuel : Nat) (tail : List Nat),
    hdrs.length < fuel →
    (∀ p ∈ hdrs, WFheader p) →
    ((acc ++ hdrs).map Prod.fst).Nodup →
    readHeaders acc fuel (hdrs.flatMap writeHeader ++ (ENDHB ++ tail)) =
      some (acc ++ hdrs, tail) := by
  induction hdrs with
  | nil =>
      intro acc fuel tail hf _ _
      obtain ⟨f, rfl⟩ : ∃ f, fuel = f + 1 := ⟨fuel - 1, by omega⟩
      simpa using readHeaders_endh acc f tail
  | cons p tl ih =>
      intro acc fuel tail hf hwf hnd
      obtain ⟨f, rfl⟩ : ∃ f, fuel = f + 1 := ⟨fuel - 1, by omega⟩
      obtain ⟨t, v⟩ := p
      have h4 : t.length = 4 := (hwf (t, v) (by simp)).1
      have hne : t ≠ ENDHtag := (hwf (t, v) (by simp)).2.1
      have hfresh : ∀ q ∈ acc, q.1 ≠ t := by
        intro q hq he
        have hnd2 : (acc.map Prod.fst ++ t :: tl.map Prod.fst).Nodup := by
          simpa using hnd
        exact (List.disjoint_of_nodup_append hnd2)
          (he ▸ List.mem_map_of_mem Prod.fst hq) (List.mem_cons_self t _)
      have hins : dictInsert acc t v = acc ++ [(t, v)] := dictInsert_fresh acc t v hfresh
      have hnd' : (((acc ++ [(t, v)]) ++ tl).map Prod.fst).Nodup := by
        simpa [List.append_assoc] using hnd
      have htl : ∀ p ∈ tl, WFheader p := fun q hq => hwf q (by simp [hq])
      cases v with
      | num n =>
          have hn : n < 2 ^ 32 := (hwf (t, .num n) (by simp)).2.2
          have hshape : ((t, HeaderValue.num n) :: tl).flatMap writeHeader ++ (ENDHB ++ tail) =
              t ++ 1 :: (write_word_le n ++ (tl.flatMap writeHeader ++ (ENDHB ++ tail))) := by
            simp [writeHeader, List.append_assoc]
          rw [hshape, readHeaders_step_num acc f t n _ h4 hn hne, hins,
            ih (acc ++ [(t, HeaderValue.num n)]) (f) tail (by simpa using hf) htl hnd']
          simp
      | buf b =>
          have hb : b.length < 2 ^ 32 := (hwf (t, .buf b) (by simp)).2.2
          have hshape : ((t, HeaderValue.buf b) :: tl).flatMap writeHeader ++ (ENDHB ++ tail) =
              t ++ 2 :: (write_word_le b.length ++
                (b ++ (tl.flatMap writeHeader ++ (ENDHB ++ tail)))) := by
            simp [writeHeader, List.append_assoc]
          rw [hshape, readHeaders_step_buf acc f t b _ h4 hb hne, hins,
            ih (acc ++ [(t, HeaderValue.buf b)]) (f) tail (by simpa using hf) htl hnd']
          simp

/-! ### Round trip: subfile index and payloads -/

theorem dictInsertM_fresh (m : List (List Nat × MetaTuple)) (k : List Nat) (v : MetaTuple)
    (h : ∀ p ∈ m, p.1 ≠ k) : readIndex.dictInsertM m k v = m ++ [(k, v)] := by
  induction m with
  | nil => rfl
  | cons p rest ih =>
      simp only [readIndex.dictInsertM]
      rw [if_neg (h p (by simp))]
      simp [ih fun q hq => h q (by simp [hq])]

theorem metaOf_map_fst (off : Nat) (sfs : List KFNSubfile) :
    (metaOf off sfs).map Prod.fst = sfs.map KFNSubfile.name := by
  induction sfs generalizing off with
  | nil => rfl
  | cons sf rest ih => simp [metaOf, ih]

theorem readIndex_encode (sfs : List KFNSubfile) :
    ∀ (off : Nat) (acc : List (List Nat × MetaTuple)) (r : List Nat),
    (∀ sf ∈ sfs, sf.name.length < 2 ^ 32 ∧ sf.length < 2 ^ 32) →
    off + (sfs.map (fun sf => sf.data.length)).sum < 2 ^ 32 →
    (∀ sf ∈ sfs, ∀ p ∈ acc, p.1 ≠ sf.name) →
    (sfs.map KFNSubfile.name).Nodup →
    readIndex sfs.length (writeIndex off sfs ++ r) acc = some (acc ++ metaOf off sfs, r) := by
  induction sfs with
  | nil => intro off acc r _ _ _ _; simp [readIndex, writeIndex, metaOf]
  | cons sf tl ih =>
      intro off acc r hb hoff hfresh hnd
      have hname : sf.name.length < 2 ^ 32 := (hb sf (by simp)).1
      have hlen : sf.length < 2 ^ 32 := (hb sf (by simp)).2
      have hdlen : sf.data.length < 2 ^ 32 := by
        simp only [List.map_cons, List.sum_cons] at hoff; omega
      have hoffb : off < 2 ^ 32 := by
        simp only [List.map_cons, List.sum_cons] at hoff; omega
      have hshape : writeIndex off (sf :: tl) ++ r =
          write_word_le sf.name.length ++ (sf.name ++ (write_word_le sf.ftype.toNat ++
            (write_word_le sf.length ++ (write_word_le off ++ (write_word_le sf.data.length ++
            (write_word_le (if sf.is_encrypted then 1 else 0) ++
              (writeIndex (off + sf.data.length) tl ++ r))))))) := by
        simp [writeIndex, List.append_assoc]
      rw [hshape]
      simp only [List.length_cons]
      simp only [readIndex]
      rw [if_neg (by simp only [List.length_append, write_word_le, toLE4, List.length_cons,
        List.length_nil]; omega)]
      rw [List.take_left' (write_word_le_length sf.name.length),
        List.drop_left' (write_word_le_length sf.name.length),
        fromLE_write_word_le sf.name.length hname,
        List.take_left sf.name _, List.drop_left sf.name _]
      set B := write_word_le sf.ftype.toNat ++ (write_word_le sf.length ++ (write_word_le off ++
        (write_word_le sf.data.length ++ (write_word_le (if sf.is_encrypted then 1 else 0) ++
        (writeIndex (off + sf.data.length) tl ++ r))))) with hB
      rw [if_neg (by rw [hB]; simp only [List.length_append, write_word_le, toLE4,
        List.length_cons, List.length_nil]; omega)]
      have t0 : B.take 4 = write_word_le sf.ftype.toNat := by
        rw [hB]; exact List.take_left' (write_word_le_length _)
      have d4 : B.drop 4 = write_word_le sf.length ++ (write_word_le off ++
          (write_word_le sf.data.length ++ (write_word_le (if sf.is_encrypted then 1 else 0) ++
          (writeIndex (off + sf.data.length) tl ++ r)))) := by
        rw [hB]; exact List.drop_left' (write_word_le_length _)
      have d8 : B.drop 8 = write_word_le off ++
          (write_word_le sf.data.length ++ (write_word_le (if sf.is_encrypted then 1 else 0) ++
          (writeIndex (off + sf.data.length) tl ++ r))) := by
        have : B = (write_word_le sf.ftype.toNat ++ write_word_le sf.length) ++
            (write_word_le off ++ (write_word_le sf.data.length ++
            (write_word_le (if sf.is_encrypted then 1 else 0) ++
            (writeIndex (off + sf.data.length) tl ++ r)))) := by
          rw [hB]; simp [List.append_assoc]
        rw [this]
        exact List.drop_left' (by simp [write_word_le, toLE4])
      have d12 : B.drop 12 = write_word_le sf.data.length ++
          (write_word_le (if sf.is_encrypted then 1 else 0) ++
          (writeIndex (off + sf.data.length) tl ++ r)) := by
        have : B = (write_word_le sf.ftype.toNat ++ (write_word_le sf.length ++
            write_word_le off)) ++ (write_word_le sf.data.length ++
            (write_word_le (if sf.is_encrypted then 1 else 0) ++
            (writeIndex (off + sf.data.length) tl ++ r))) := by
          rw [hB]; simp [List.append_assoc]
        rw [this]
        exact List.drop_left' (by simp [write_word_le, toLE4])
      have d16 : B.drop 16 = write_word_le (if sf.is_encrypted then 1 else 0) ++
          (writeIndex (off + sf.data.length) tl ++ r) := by
        have : B = (write_word_le sf.ftype.toNat ++ (write_word_le sf.length ++
            (write_word_le off ++ write_word_le sf.data.length))) ++
            (write_word_le (if sf.is_encrypted then 1 else 0) ++
            (writeIndex (off + sf.data.length) tl ++ r)) := by
          rw [hB]; simp [List.append_assoc]
        rw [this]
        exact List.drop_left' (by simp [write_word_le, toLE4])
      have d20 : B.drop 20 = writeIndex (off + sf.data.length) tl ++ r := by
        have : B = (write_word_le sf.ftype.toNat ++ (write_word_le sf.length ++
            (write_word_le off ++ (write_word_le sf.data.length ++
            write_word_le (if sf.is_encrypted then 1 else 0))))) ++
            (writeIndex (off + sf.data.length) tl ++ r) := by
          rw [hB]; simp [List.append_assoc]
        rw [this]
        exact List.drop_left' (by simp [write_word_le, toLE4])
      rw [t0, d4, d8, d12, d16, d20]
      rw [List.take_left' (write_word_le_length _), List.take_left' (write_word_le_length _),
        List.take_left' (write_word_le_length _), List.take_left' (write_word_le_length _)]
      have hft : sf.ftype.toNat < 2 ^ 32 := by cases sf.ftype <;> simp [KFNSubfileType.toNat]
      have hflag : (if sf.is_encrypted then 1 else 0) < 2 ^ 32 := by
        cases sf.is_encrypted <;> simp
      rw [fromLE_write_word_le _ hft, fromLE_write_word_le _ hlen,
        fromLE_write_word_le _ hoffb, fromLE_write_word_le _ hdlen,
        fromLE_write_word_le _ hflag]
      have hinsM : readIndex.dictInsertM acc sf.name
          (sf.ftype.toNat, sf.length, off, sf.data.length,
            if sf.is_encrypted then 1 else 0) =
          acc ++ [(sf.name, (sf.ftype.toNat, sf.length, off, sf.data.length,
            if sf.is_encrypted then 1 else 0))] :=
        dictInsertM_fresh acc sf.name _ (fun p hp => hfresh sf (by simp) p hp)
      rw [hinsM]
      have hfresh' : ∀ q ∈ tl, ∀ p ∈ acc ++ [(sf.name, (sf.ftype.toNat, sf.length, off,
          sf.data.length, if sf.is_encrypted then 1 else 0))], p.1 ≠ q.name := by
        intro q hq p hp
        rcases List.mem_append.mp hp with h | h
        · exact hfresh q (by simp [hq]) p h
        · simp only [List.mem_singleton] at h
          subst h
          simp only [List.map_cons, List.nodup_cons] at hnd
          intro he
          simp only at he
          exact hnd.1 (he ▸ List.mem_map_of_mem KFNSubfile.name hq)
      have := ih (off + sf.data.length) (acc ++ [(sf.name, (sf.ftype.toNat, sf.length, off,
          sf.data.length, if sf.is_encrypted then 1 else 0))]) r
        (fun q hq => hb q (by simp [hq]))
        (by simp only [List.map_cons, List.sum_cons] at hoff; omega)
        hfresh'
        (by simp only [List.map_cons, List.nodup_cons] at hnd; exact hnd.2)
      rw [this]
      simp [metaOf, List.append_assoc]

theorem buildSubfiles_encode (sfs : List KFNSubfile) :
    ∀ (junk : List Nat),
    buildSubfiles (junk ++ sfs.flatMap (fun sf => sf.data)) (metaOf junk.length sfs) =
      some sfs := by
  induction sfs with
  | nil => intro junk; simp [buildSubfiles, metaOf]
  | cons sf tl ih =>
      intro junk
      simp only [metaOf, buildSubfiles, KFNSubfileType.ofNat?_toNat, Option.bind_eq_bind,
        Option.some_bind, List.flatMap_cons]
      have hbody : junk ++ (sf.data ++ tl.flatMap (fun sf => sf.data)) =
          (junk ++ sf.data) ++ tl.flatMap (fun sf => sf.data) := by
        simp [List.append_assoc]
      rw [hbody]
      have hdrop : ((junk ++ sf.data) ++ tl.flatMap (fun sf => sf.data)).drop junk.length =
          sf.data ++ tl.flatMap (fun sf => sf.data) := by
        rw [List.append_assoc]
        exact List.drop_left junk _
      have := ih (junk ++ sf.data)
      rw [show (junk ++ sf.data).length = junk.length + sf.data.length by simp] at this
      rw [this, hdrop, List.take_left sf.data _]
      have hflag : (decide (¬ (if sf.is_encrypted = true then 1 else 0) = 0)) =
          sf.is_encrypted := by cases sf.is_encrypted <;> simp
      simp [hflag]

theorem headers_length_le (hdrs : List (List Nat × HeaderValue)) :
    hdrs.length ≤ (hdrs.flatMap writeHeader).length := by
  induction hdrs with
  | nil => simp
  | cons p tl ih =>
      obtain ⟨t, v⟩ := p
      have : 1 ≤ (writeHeader (t, v)).length := by
        cases v <;> simp only [writeHeader, List.length_append, List.length_cons] <;> omega
      simp only [List.flatMap_cons, List.length_append, List.length_cons]
      omega

/--
Claim C1 (round trip): for every well-formed Container `c` with no encrypted
subfiles (each subfile's encryption flag false and buffer length equal to its
declared plaintext length), `read_kfn (write_kfn c) = some c`: decoding the
encoded bytes reproduces every header entry (same tags and values, in the
same order) and every subfile's metadata and payload bytes.
-/
theorem C1_decode_encode_roundtrip (c : KFNFile) (hwf : WFkfn c)
    (henc : ∀ sf ∈ c.subfiles, sf.is_encrypted = false ∧ sf.data.length = sf.length) :
    read_kfn (write_kfn c) = some c := by
  obtain ⟨hwfh, hndh, hbsf, hndsf, hcount, hsum⟩ := hwf
  clear henc
  have hshape : write_kfn c = MAGICB ++ ((c.headers.flatMap writeHeader) ++ (ENDHB ++
      (write_word_le c.subfiles.length ++ (writeIndex 0 c.subfiles ++
        c.subfiles.flatMap (fun sf => sf.data))))) := by
    simp [write_kfn, List.append_assoc]
  have hlen4 : ¬ (write_kfn c).length < 4 := by
    rw [hshape]; simp [MAGICB]
  have htake4 : (write_kfn c).take 4 = MAGICB := by
    rw [hshape]; exact List.take_left' rfl
  have hdrop4 : (write_kfn c).drop 4 = (c.headers.flatMap writeHeader) ++ (ENDHB ++
      (write_word_le c.subfiles.length ++ (writeIndex 0 c.subfiles ++
        c.subfiles.flatMap (fun sf => sf.data)))) := by
    rw [hshape]; exact List.drop_left' rfl
  have hfuel : c.headers.length < (write_kfn c).length + 1 := by
    have h1 := headers_length_le c.headers
    have h2 : (c.headers.flatMap writeHeader).length ≤ (write_kfn c).length := by
      rw [hshape]; simp; omega
    omega
  have hrh := readHeaders_encode c.headers [] ((write_kfn c).length + 1)
    (write_word_le c.subfiles.length ++ (writeIndex 0 c.subfiles ++
      c.subfiles.flatMap (fun sf => sf.data))) hfuel hwfh (by simpa using hndh)
  have hri := readIndex_encode c.subfiles 0 []
    (c.subfiles.flatMap (fun sf => sf.data)) hbsf (by simpa using hsum)
    (by simp) hndsf
  have hbs := buildSubfiles_encode c.subfiles []
  simp only [List.nil_append, List.length_nil] at hbs
  rw [read_kfn]
  rw [if_neg hlen4, htake4, if_neg (by simp), hdrop4, hrh]
  simp only [List.nil_append, Option.bind_eq_bind, Option.some_bind]
  rw [if_neg (by simp [write_word_le, toLE4]),
    List.take_left' (write_word_le_length _), fromLE_write_word_le _ hcount,
    List.drop_left' (write_word_le_length _), hri]
  simp [hbs]
/-! ### Header-dict lemmas shared by the unlock theorems -/

theorem assocFind_dictInsert_self (m : List (List Nat × HeaderValue)) (k : List Nat)
    (v : HeaderValue) : assocFind (dictInsert m k v) k = some v := by
  induction m with
  | nil => simp [dictInsert, assocFind]
  | cons p rest ih =>
      obtain ⟨k', v'⟩ := p
      by_cases h : k' = k
      · simp [dictInsert, assocFind, h]
      · simp [dictInsert, assocFind, h, ih]

theorem assocFind_dictInsert_ne (m : List (List Nat × HeaderValue)) (k k' : List Nat)
    (v : HeaderValue) (h : k' ≠ k) :
    assocFind (dictInsert m k v) k' = assocFind m k' := by
  induction m with
  | nil =>
      simp only [dictInsert, assocFind]
      rw [if_neg fun he => h he.symm]
  | cons p rest ih =>
      obtain ⟨k0, v0⟩ := p
      by_cases h0 : k0 = k
      · subst h0
        simp only [dictInsert, if_pos rfl, assocFind]
        rw [if_neg fun he => h he.symm, if_neg fun he => h he.symm]
      · simp only [dictInsert, if_neg h0]
        by_cases h1 : k0 = k'
        · simp [assocFind, h1]
        · simp [assocFind, h1, ih]

theorem dictInsert_of_find_eq (m : List (List Nat × HeaderValue)) (k : List Nat)
    (v : HeaderValue) (h : assocFind m k = some v) : dictInsert m k v = m := by
  induction m with
  | nil => simp [assocFind] at h
  | cons p rest ih =>
      obtain ⟨k0, v0⟩ := p
      by_cases h0 : k0 = k
      · subst h0
        simp only [assocFind, eq_self_iff_true, if_true, Option.some_inj] at h
        subst h
        simp [dictInsert]
      · simp only [assocFind, if_neg h0] at h
        simp [dictInsert, h0, ih h]

/-! ### Claim C6: all-zero key short-circuit -/

/--
Claim C6: for every Container whose `FLID` header value is 16 zero bytes,
the decryption stage of unlock is the identity — no decryption is performed
and every subfile's payload buffer and encryption flag are exactly as they
were.
-/
theorem C6_zero_key_noop (D : List Nat → List Nat → List Nat) (c : KFNFile)
    (h : assocFind c.headers FLIDtag = some (.buf zeros16)) : step1 D c = .ok c := by
  simp [step1, h]

/-- Witness for C6 at a concrete container. -/
theorem C6_zero_key_noop_witness :
    step1 exD { headers := [(FLIDtag, .buf zeros16)],
                subfiles := [{ name := [97], ftype :=  AUDIO, data := [1, 2, 3],
                               length := 3, is_encrypted := false }] } =
      .ok { headers := [(FLIDtag, .buf zeros16)],
            subfiles := [{ name := [97], ftype :=  AUDIO, data := [1, 2, 3],
                           length := 3, is_encrypted := false }] } :=
  C6_zero_key_noop exD _ (by decide)

/-! ### Claim C10: unlock requires a FLID header entry -/

/--
Claim C10 (implicit): applied to a Container whose header table has no
`FLID` tag, unlock fails with the `KeyError` raised by the very first
lookup `kfn.headers["FLID"]` — before any header or subfile is mutated (the
lookup is the first statement of `unlock_kfn`, so the raised error leaves
the container untouched); the all-zero no-op rule never applies to a
missing key.
-/
theorem C10_missing_flid (D : List Nat → List Nat → List Nat) (c : KFNFile)
    (h : assocFind c.headers FLIDtag = none) :
    unlock_kfn D c = .error .keyError := by
  simp [unlock_kfn, step1, h, Bind.bind, Except.bind]

/-- Witness for C10: a stream with no `FLID` header is a valid decode result
(here with an empty header table and no subfiles), and unlock fails on it
with the key error. -/
theorem C10_missing_flid_witness :
    read_kfn (MAGICB ++ ENDHB ++ write_word_le 0) = some { headers := [], subfiles := [] } ∧
    unlock_kfn exD { headers := [], subfiles := [] } = .error .keyError :=
  ⟨by decide, C10_missing_flid exD _ (by decide)⟩

/-! ### Claim C2: decryption stage -/

theorem decryptList_aligned (D : List Nat → List Nat → List Nat) (key : List Nat)
    (sfs : List KFNSubfile)
    (h : ∀ sf ∈ sfs, sf.is_encrypted = true → sf.data.length % 16 = 0) :
    decryptList D key sfs [] = (sfs.map (unlockSf D key), []) := by
  induction sfs with
  | nil => rfl
  | cons sf rest ih =>
      have ihr := ih fun q hq => h q (by simp [hq])
      cases he : sf.is_encrypted with
      | false =>
          simp [decryptList, he, ihr, unlockSf]
      | true =>
          have hlen : sf.data.length % 16 = 0 := h sf (by simp) he
          have hupd : decUpdate D key [] sf.data = (ecbChunks D key sf.data, []) := by
            simp [decUpdate, hlen]
          simp [decryptList, he, hupd, ihr, unlockSf]

/--
Claim C2 (decryption stage): for every decoded Container whose `FLID` value
is a 16-byte key other than 16 zero bytes (with every encrypted payload
block-aligned, the data-model invariant for ciphertexts), the decryption
stage replaces each flagged subfile's buffer by the first
declared-plaintext-length bytes of the full ECB decryption of its old
buffer under that key, clears its flag, leaves other subfiles untouched,
and the `FLID` header value equals 16 zero bytes at the end of the stage.
-/
theorem C2_decryption_stage (D : List Nat → List Nat → List Nat) (c : KFNFile)
    (key : List Nat)
    (hf : assocFind c.headers FLIDtag = some (.buf key))
    (hnz : key ≠ zeros16) (h16 : key.length = 16)
    (halign : ∀ sf ∈ c.subfiles, sf.is_encrypted = true → sf.data.length % 16 = 0) :
    step1 D c = .ok { headers := dictInsert c.headers FLIDtag (.buf zeros16),
                      subfiles := c.subfiles.map (unlockSf D key) } ∧
    assocFind (dictInsert c.headers FLIDtag (.buf zeros16)) FLIDtag =
      some (.buf zeros16) := by
  refine ⟨?_, assocFind_dictInsert_self c.headers FLIDtag (.buf zeros16)⟩
  simp [step1, hf, hnz, h16, decryptList_aligned D key c.subfiles halign]

/-- Witness for C2, realising the spec's truncation example: a 32-byte
ciphertext with declared plaintext length 20 comes back as the first 20
bytes of the full 32-byte decryption (here each byte 5 becomes 6 under the
concrete block operation), with the flag cleared, while an unencrypted
subfile is untouched and `FLID` reads as 16 zero bytes afterwards. -/
theorem C2_decryption_stage_witness :
    step1 exD { headers := [(FLIDtag, .buf exKey), (RGHTtag, .num 1)],
                subfiles := [{ name := [98], ftype :=  AUDIO,
                               data := List.replicate 32 5, length := 20,
                               is_encrypted := true },
                             { name := [99], ftype := .IMAGE, data := [1, 2],
                               length := 2, is_encrypted := false }] } =
      .ok { headers := dictInsert [(FLIDtag, .buf exKey), (RGHTtag, .num 1)]
                          FLIDtag (.buf zeros16),
            subfiles := List.map (unlockSf exD exKey)
              [{ name := [98], ftype :=  AUDIO, data := List.replicate 32 5,
                 length := 20, is_encrypted := true },
               { name := [99], ftype := .IMAGE, data := [1, 2], length := 2,
                 is_encrypted := false }] } ∧
    assocFind (dictInsert [(FLIDtag, .buf exKey), (RGHTtag, .num 1)]
      FLIDtag (.buf zeros16)) FLIDtag = some (.buf zeros16) :=
  C2_decryption_stage exD _ exKey (by decide) (by decide) (by decide) (by decide)

/-! ### Claim C9: ciphertext length handling of the decrypt operation -/

theorem ecbGo_length (D : List Nat → List Nat → List Nat) (key : List Nat)
    (hD : ∀ b : List Nat, b.length = 16 → (D key b).length = 16) :
    ∀ (fuel : Nat) (bs : List Nat), bs.length ≤ fuel → bs.length % 16 = 0 →
    (ecbGo D key fuel bs).length = bs.length := by
  intro fuel
  induction fuel with
  | zero =>
      intro bs hle _
      have h0 : bs.length = 0 := by omega
      simp [ecbGo, h0]
  | succ f ih =>
      intro bs hle hmod
      by_cases h16 : 16 ≤ bs.length
      · have ht : (bs.take 16).length = 16 := by rw [List.length_take]; omega
        have hd : (bs.drop 16).length = bs.length - 16 := List.length_drop 16 bs
        have hle2 : (bs.drop 16).length ≤ f := by omega
        have hm2 : (bs.drop 16).length % 16 = 0 := by omega
        have hih := ih (bs.drop 16) hle2 hm2
        simp only [ecbGo, if_pos h16, List.length_append, hD _ ht, hih, hd]
        omega
      · have h0 : bs.length = 0 := by omega
        simp [ecbGo, h16, h0]

theorem ecbChunks_length (D : List Nat → List Nat → List Nat) (key : List Nat)
    (hD : ∀ b : List Nat, b.length = 16 → (D key b).length = 16)
    (bs : List Nat) (hmod : bs.length % 16 = 0) :
    (ecbChunks D key bs).length = bs.length :=
  ecbGo_length D key hD bs.length bs le_rfl hmod

/--
Claim C9, corrected.  The decrypt operation the source actually performs is
`decryptor.update(buffer)`, which never fails on a length that is not a
multiple of 16: starting from an empty internal buffer it returns the
decryption of the complete 16-byte blocks (output length is the input
length rounded down to a multiple of 16) and retains the ragged remainder
in the decryptor's internal buffer.  In particular, for a buffer whose
length is a multiple of 16 it produces a plaintext buffer of the same
length as the input — the half of the original claim that holds.
(`InvalidCiphertextLength` would only arise from `finalize`, which the
source never calls.)
-/
theorem C9_update_never_fails (D : List Nat → List Nat → List Nat) (key : List Nat)
    (hD : ∀ b : List Nat, b.length = 16 → (D key b).length = 16) (data : List Nat) :
    (decUpdate D key [] data).1.length = data.length - data.length % 16 ∧
    (decUpdate D key [] data).2 = data.drop (data.length - data.length % 16) ∧
    (data.length % 16 = 0 → (decUpdate D key [] data).1.length = data.length) := by
  have hm : (data.take (data.length - data.length % 16)).length =
      data.length - data.length % 16 := by rw [List.length_take]; omega
  have h1 : (decUpdate D key [] data).1.length = data.length - data.length % 16 := by
    simp only [decUpdate, List.nil_append]
    rw [ecbChunks_length D key hD _ (by rw [hm]; omega), hm]
  refine ⟨h1, by simp [decUpdate], fun h0 => ?_⟩
  rw [h1]; omega

/-- Counterexample for C9 as stated: a 20-byte encrypted payload (length not
a multiple of 16) does not make the decryption stage fail — `step1`
succeeds, the single complete block is decrypted, and after truncation to
the declared length 20 the subfile is left with only those 16 bytes (the
remaining 4 ciphertext bytes stay buffered inside the discarded decryptor). -/
theorem C9_counterexample :
    step1 exD { headers := [(FLIDtag, .buf exKey)],
                subfiles := [{ name := [97], ftype :=  AUDIO,
                               data := List.replicate 20 5, length := 20,
                               is_encrypted := true }] } =
      .ok { headers := [(FLIDtag, .buf zeros16)],
            subfiles := [{ name := [97], ftype :=  AUDIO,
                           data := List.replicate 16 6, length := 20,
                           is_encrypted := false }] } ∧
    (decUpdate exD exKey [] (List.replicate 20 5)).1.length = 16 ∧
    (decUpdate exD exKey [] (List.replicate 20 5)).2 = List.replicate 4 5 := by
  refine ⟨by decide, by decide, by decide⟩
/-- Witness for C1 at a concrete container with integer and buffer headers
and two subfiles. -/
theorem C1_decode_encode_roundtrip_witness : read_kfn (write_kfn exC1) = some exC1 :=
  C1_decode_encode_roundtrip exC1 (by decide) (by decide)

/-! ### Claim C5: rights stage -/

theorem unlock_split (D : List Nat → List Nat → List Nat) (c c' : KFNFile)
    (h : unlock_kfn D c = .ok c') :
    ∃ a, step1 D c = .ok a ∧ step3 (step2 a) = .ok c' := by
  cases hs : step1 D c with
  | error e =>
      rw [unlock_kfn, hs] at h
      simp [Bind.bind, Except.bind] at h
  | ok a =>
      refine ⟨a, rfl, ?_⟩
      rw [unlock_kfn, hs] at h
      simpa [Bind.bind, Except.bind] using h

theorem step3_headers (kfn k' : KFNFile) (h : step3 kfn = .ok k') :
    k'.headers = kfn.headers := by
  cases hm : kfn.subfiles.mapM rewriteSong with
  | error e =>
      rw [step3, hm] at h
      simp [Bind.bind, Except.bind] at h
  | ok sfs =>
      rw [step3, hm] at h
      simp only [Bind.bind, Except.bind, pure, Except.pure, Except.ok.injEq] at h
      rw [← h]

theorem step1_find_ne (D : List Nat → List Nat → List Nat) (c a : KFNFile)
    (tag : List Nat) (hne : tag ≠ FLIDtag) (h : step1 D c = .ok a) :
    assocFind a.headers tag = assocFind c.headers tag := by
  rw [step1] at h
  split at h
  · exact absurd h (by simp)
  · split at h
    · cases h
      rfl
    · split at h
      · exact absurd h (by simp)
      · split at h
        · cases h
          exact assocFind_dictInsert_ne c.headers FLIDtag tag (.buf zeros16) hne
        · exact absurd h (by simp)

/--
Claim C5 (rights stage): for every Container on which unlock succeeds, the
`RGHT` header entry holds the integer 0 afterwards if such an entry existed
before unlock, and no `RGHT` entry exists afterwards if none existed before
(the entry is never created).
-/
theorem C5_rights_stage (D : List Nat → List Nat → List Nat) (c c' : KFNFile)
    (h : unlock_kfn D c = .ok c') :
    ((assocFind c.headers RGHTtag).isSome →
      assocFind c'.headers RGHTtag = some (.num 0)) ∧
    (assocFind c.headers RGHTtag = none → assocFind c'.headers RGHTtag = none) := by
  obtain ⟨a, h1, h3⟩ := unlock_split D c c' h
  have hne : RGHTtag ≠ FLIDtag := by decide
  have ha : assocFind a.headers RGHTtag = assocFind c.headers RGHTtag :=
    step1_find_ne D c a RGHTtag hne h1
  have hh : c'.headers = (step2 a).headers := step3_headers (step2 a) c' h3
  constructor
  · intro hs
    have has : (assocFind a.headers RGHTtag).isSome := by rw [ha]; exact hs
    rw [hh, step2, if_pos has]
    exact assocFind_dictInsert_self a.headers RGHTtag (.num 0)
  · intro hn
    have han : assocFind a.headers RGHTtag = none := by rw [ha]; exact hn
    rw [hh, step2, if_neg (by simp [han])]
    exact han

/-- Witness for C5: a container with `RGHT` initially 5 unlocks with `RGHT`
overwritten by the integer 0. -/
theorem C5_rights_stage_witness :
    ((assocFind ({ headers := [(FLIDtag, HeaderValue.buf zeros16),
        (RGHTtag, HeaderValue.num 5)], subfiles := [] } : KFNFile).headers
        RGHTtag).isSome →
      assocFind ({ headers := [(FLIDtag, HeaderValue.buf zeros16),
        (RGHTtag, HeaderValue.num 0)], subfiles := [] } : KFNFile).headers
        RGHTtag = some (.num 0)) ∧
    (assocFind ({ headers := [(FLIDtag, HeaderValue.buf zeros16),
        (RGHTtag, HeaderValue.num 5)], subfiles := [] } : KFNFile).headers
        RGHTtag = none →
      assocFind ({ headers := [(FLIDtag, HeaderValue.buf zeros16),
        (RGHTtag, HeaderValue.num 0)], subfiles := [] } : KFNFile).headers
        RGHTtag = none) :=
  C5_rights_stage exD _ _ (by decide)

/-! ### Claim C3: effect filtering -/

theorem findSec_append_not (done l : List ConfigSection) (n : List Nat)
    (h : ∀ q ∈ done, q.name ≠ n) : findSec (done ++ l) n = findSec l n := by
  induction done with
  | nil => rfl
  | cons s rest ih =>
      simp only [List.cons_append, findSec]
      rw [if_neg (h s (by simp))]
      exact ih fun q hq => h q (by simp [hq])

theorem delSection_append_not (done l : List ConfigSection) (n : List Nat)
    (h : ∀ q ∈ done, q.name ≠ n) : delSection (done ++ l) n = done ++ delSection l n := by
  induction done with
  | nil => rfl
  | cons s rest ih =>
      simp only [List.cons_append, delSection]
      rw [if_neg (h s (by simp))]
      simp [ih fun q hq => h q (by simp [hq])]

theorem roiGo_cons_noneff (n : List Nat) (rest : List (List Nat))
    (doc : List ConfigSection) (he : ¬ effName n = true) :
    roiGo (n :: rest) doc = roiGo rest doc := by
  simp [roiGo, he]

theorem roiGo_cons_eff (n : List Nat) (rest : List (List Nat))
    (doc : List ConfigSection) (he : effName n = true) (i : Int)
    (hg : getintId doc n = some i) :
    roiGo (n :: rest) doc =
      (if i ∈ VALID_EFFECT_IDS then roiGo rest doc
       else roiGo rest (delSection doc n)) := by
  simp [roiGo, he, hg]

theorem roiGo_filter (suffix : List ConfigSection) :
    ∀ (done : List ConfigSection),
    (((done ++ suffix).map ConfigSection.name).Nodup) →
    (∀ s ∈ suffix, effName s.name = true → (getSecId s).isSome) →
    roiGo (suffix.map ConfigSection.name) (done ++ suffix) =
      .ok (done ++ suffix.filter keepSec) := by
  induction suffix with
  | nil => intro done _ _; simp [roiGo]
  | cons s rest ih =>
      intro done hnd hid
      have hfreshdone : ∀ q ∈ done, q.name ≠ s.name := by
        intro q hq he
        have hnd2 : (done.map ConfigSection.name ++
            s.name :: rest.map ConfigSection.name).Nodup := by simpa using hnd
        exact (List.disjoint_of_nodup_append hnd2)
          (he ▸ List.mem_map_of_mem ConfigSection.name hq) (List.mem_cons_self _ _)
      have hshift : done ++ s :: rest = (done ++ [s]) ++ rest := by simp
      have hnd' : (((done ++ [s]) ++ rest).map ConfigSection.name).Nodup := by
        rw [← hshift]; exact hnd
      have hidr : ∀ q ∈ rest, effName q.name = true → (getSecId q).isSome :=
        fun q hq => hid q (by simp [hq])
      rw [List.map_cons]
      by_cases he : effName s.name
      · have hfind : findSec (done ++ s :: rest) s.name = some s := by
          rw [findSec_append_not done _ _ hfreshdone]
          simp [findSec]
        obtain ⟨i, hi⟩ := Option.isSome_iff_exists.mp (hid s (by simp) he)
        have hgid : getintId (done ++ s :: rest) s.name = some i := by
          simp [getintId, hfind, getSecId] at hi ⊢
          exact hi
        rw [roiGo_cons_eff s.name _ _ he i hgid]
        by_cases hin : i ∈ VALID_EFFECT_IDS
        · rw [if_pos hin]
          have hkeep : keepSec s = true := by
            simp [keepSec, he, hi, hin]
          rw [hshift, ih (done ++ [s]) hnd' hidr]
          simp [hkeep, List.append_assoc]
        · rw [if_neg hin]
          have hkeep : keepSec s = false := by
            simp [keepSec, he, hi, hin]
          have hdel : delSection (done ++ s :: rest) s.name = done ++ rest := by
            rw [delSection_append_not done _ _ hfreshdone]
            simp [delSection]
          have hndr : ((done ++ rest).map ConfigSection.name).Nodup := by
            have hsub : (done ++ rest).Sublist (done ++ s :: rest) :=
              List.Sublist.append_left (List.sublist_cons_self s rest) done
            exact List.Nodup.sublist (List.Sublist.map ConfigSection.name hsub) hnd
          rw [hdel, ih done hndr hidr]
          simp [hkeep]
      · rw [roiGo_cons_noneff s.name _ _ he]
        have hkeep : keepSec s = true := by simp [keepSec, he]
        rw [hshift, ih (done ++ [s]) hnd' hidr]
        simp [hkeep, List.append_assoc]

/--
Claim C3 (effect filtering): for a parsed SONG-config document (section
names distinct, as the strict parser guarantees) in which every
`"eff"`-prefixed section has a parseable integer `"id"`, the filtering pass
returns exactly the sections satisfying the retention predicate, in their
original order (the result is a sublist of the document): a section `s` of
the document is removed if and only if its name starts case-insensitively
with `"eff"` and its id is not in `VALID_EFFECT_IDS`; sections whose names
do not match the prefix are retained regardless of content.
-/
theorem C3_effect_filtering (doc : List ConfigSection)
    (hnd : (doc.map ConfigSection.name).Nodup)
    (hid : ∀ s ∈ doc, effName s.name = true → (getSecId s).isSome) :
    removeInvalidEffects doc = .ok (doc.filter keepSec) ∧
    List.Sublist (doc.filter keepSec) doc ∧
    (∀ s ∈ doc, (s ∈ doc.filter keepSec ↔
      ¬(effName s.name = true ∧ ∃ i, getSecId s = some i ∧ i ∉ VALID_EFFECT_IDS))) := by
  refine ⟨by simpa using roiGo_filter doc [] (by simpa using hnd) hid,
    List.filter_sublist doc, ?_⟩
  intro s hs
  rw [List.mem_filter]
  constructor
  · rintro ⟨-, hkeep⟩ ⟨heff, i, hi, hnin⟩
    simp [keepSec, heff, hi] at hkeep
    exact hnin hkeep
  · intro hnot
    refine ⟨hs, ?_⟩
    by_cases heff : effName s.name
    · obtain ⟨i, hi⟩ := Option.isSome_iff_exists.mp (hid s hs heff)
      have hin : i ∈ VALID_EFFECT_IDS := by
        by_contra hnin
        exact hnot ⟨heff, i, hi, hnin⟩
      simp [keepSec, heff, hi, hin]
    · simp [keepSec, heff]

/-- Witness for C3 at the spec's own example document: sections `Eff1`
(id 1, kept), `EFF2` (id 999, removed), `Verse` (no id key, non-eff name,
kept unchanged), order preserved. -/
theorem C3_effect_filtering_witness :
    removeInvalidEffects exDoc3 = .ok (exDoc3.filter keepSec) ∧
    List.Sublist (exDoc3.filter keepSec) exDoc3 ∧
    (∀ s ∈ exDoc3, (s ∈ exDoc3.filter keepSec ↔
      ¬(effName s.name = true ∧ ∃ i, getSecId s = some i ∧ i ∉ VALID_EFFECT_IDS))) :=
  C3_effect_filtering exDoc3 (by decide) (by decide)

/-! ### Claim C8: decode index fidelity -/

theorem readIndex_entries (es : List IndexEntry) :
    ∀ (acc : List (List Nat × MetaTuple)) (body : List Nat),
    (∀ e ∈ es, e.name.length < 2 ^ 32 ∧ e.ftypeCode < 2 ^ 32 ∧ e.plen < 2 ^ 32 ∧
      e.off < 2 ^ 32 ∧ e.elen < 2 ^ 32 ∧ e.enc < 2 ^ 32) →
    (∀ e ∈ es, ∀ p ∈ acc, p.1 ≠ e.name) →
    ((es.map IndexEntry.name).Nodup) →
    readIndex es.length (es.flatMap entryBytes ++ body) acc =
      some (acc ++ es.map (fun e => (e.name, (e.ftypeCode, e.plen, e.off, e.elen, e.enc))),
        body) := by
  induction es with
  | nil => intro acc body _ _ _; simp [readIndex]
  | cons e tl ih =>
      intro acc body hb hfresh hnd
      obtain ⟨hname, hft, hpl, hoff, hel, henc⟩ := hb e (by simp)
      have hshape : (e :: tl).flatMap entryBytes ++ body =
          write_word_le e.name.length ++ (e.name ++ (write_word_le e.ftypeCode ++
            (write_word_le e.plen ++ (write_word_le e.off ++ (write_word_le e.elen ++
            (write_word_le e.enc ++ (tl.flatMap entryBytes ++ body))))))) := by
        simp [entryBytes, List.append_assoc]
      rw [hshape]
      simp only [List.length_cons]
      simp only [readIndex]
      rw [if_neg (by simp only [List.length_append, write_word_le, toLE4, List.length_cons,
        List.length_nil]; omega)]
      rw [List.take_left' (write_word_le_length e.name.length),
        List.drop_left' (write_word_le_length e.name.length),
        fromLE_write_word_le e.name.length hname,
        List.take_left e.name _, List.drop_left e.name _]
      set B := write_word_le e.ftypeCode ++ (write_word_le e.plen ++ (write_word_le e.off ++
        (write_word_le e.elen ++ (write_word_le e.enc ++
        (tl.flatMap entryBytes ++ body))))) with hB
      rw [if_neg (by rw [hB]; simp only [List.length_append, write_word_le, toLE4,
        List.length_cons, List.length_nil]; omega)]
      have t0 : B.take 4 = write_word_le e.ftypeCode := by
        rw [hB]; exact List.take_left' (write_word_le_length _)
      have d4 : B.drop 4 = write_word_le e.plen ++ (write_word_le e.off ++
          (write_word_le e.elen ++ (write_word_le e.enc ++
          (tl.flatMap entryBytes ++ body)))) := by
        rw [hB]; exact List.drop_left' (write_word_le_length _)
      have d8 : B.drop 8 = write_word_le e.off ++ (write_word_le e.elen ++
          (write_word_le e.enc ++ (tl.flatMap entryBytes ++ body))) := by
        have : B = (write_word_le e.ftypeCode ++ write_word_le e.plen) ++
            (write_word_le e.off ++ (write_word_le e.elen ++ (write_word_le e.enc ++
            (tl.flatMap entryBytes ++ body)))) := by
          rw [hB]; simp [List.append_assoc]
        rw [this]
        exact List.drop_left' (by simp [write_word_le, toLE4])
      have d12 : B.drop 12 = write_word_le e.elen ++ (write_word_le e.enc ++
          (tl.flatMap entryBytes ++ body)) := by
        have : B = (write_word_le e.ftypeCode ++ (write_word_le e.plen ++
            write_word_le e.off)) ++ (write_word_le e.elen ++ (write_word_le e.enc ++
            (tl.flatMap entryBytes ++ body))) := by
          rw [hB]; simp [List.append_assoc]
        rw [this]
        exact List.drop_left' (by simp [write_word_le, toLE4])
      have d16 : B.drop 16 = write_word_le e.enc ++ (tl.flatMap entryBytes ++ body) := by
        have : B = (write_word_le e.ftypeCode ++ (write_word_le e.plen ++
            (write_word_le e.off ++ write_word_le e.elen))) ++
            (write_word_le e.enc ++ (tl.flatMap entryBytes ++ body)) := by
          rw [hB]; simp [List.append_assoc]
        rw [this]
        exact List.drop_left' (by simp [write_word_le, toLE4])
      have d20 : B.drop 20 = tl.flatMap entryBytes ++ body := by
        have : B = (write_word_le e.ftypeCode ++ (write_word_le e.plen ++
            (write_word_le e.off ++ (write_word_le e.elen ++ write_word_le e.enc)))) ++
            (tl.flatMap entryBytes ++ body) := by
          rw [hB]; simp [List.append_assoc]
        rw [this]
        exact List.drop_left' (by simp [write_word_le, toLE4])
      rw [t0, d4, d8, d12, d16, d20]
      rw [List.take_left' (write_word_le_length _), List.take_left' (write_word_le_length _),
        List.take_left' (write_word_le_length _), List.take_left' (write_word_le_length _)]
      rw [fromLE_write_word_le _ hft, fromLE_write_word_le _ hpl,
        fromLE_write_word_le _ hoff, fromLE_write_word_le _ hel,
        fromLE_write_word_le _ henc]
      have hinsM : readIndex.dictInsertM acc e.name
          (e.ftypeCode, e.plen, e.off, e.elen, e.enc) =
          acc ++ [(e.name, (e.ftypeCode, e.plen, e.off, e.elen, e.enc))] :=
        dictInsertM_fresh acc e.name _ (fun p hp => hfresh e (by simp) p hp)
      rw [hinsM]
      have hfresh' : ∀ q ∈ tl, ∀ p ∈ acc ++ [(e.name,
          (e.ftypeCode, e.plen, e.off, e.elen, e.enc))], p.1 ≠ q.name := by
        intro q hq p hp
        rcases List.mem_append.mp hp with h | h
        · exact hfresh q (by simp [hq]) p h
        · simp only [List.mem_singleton] at h
          subst h
          simp only [List.map_cons, List.nodup_cons] at hnd
          intro he
          simp only at he
          exact hnd.1 (he ▸ List.mem_map_of_mem IndexEntry.name hq)
      rw [ih (acc ++ [(e.name, (e.ftypeCode, e.plen, e.off, e.elen, e.enc))]) body
        (fun q hq => hb q (by simp [hq])) hfresh'
        (by simp only [List.map_cons, List.nodup_cons] at hnd; exact hnd.2)]
      simp [List.append_assoc]

theorem buildSubfiles_entries (es : List IndexEntry) (body : List Nat)
    (hft : ∀ e ∈ es, (KFNSubfileType.ofNat? e.ftypeCode).isSome) :
    buildSubfiles body
      (es.map (fun e => (e.name, (e.ftypeCode, e.plen, e.off, e.elen, e.enc)))) =
      some (es.map (entrySubfile body)) := by
  induction es with
  | nil => simp [buildSubfiles]
  | cons e tl ih =>
      obtain ⟨t, ht⟩ := Option.isSome_iff_exists.mp (hft e (by simp))
      simp only [List.map_cons, buildSubfiles, ht, Option.bind_eq_bind, Option.some_bind,
        ih fun q hq => hft q (by simp [hq])]
      simp [entrySubfile, ht]

/--
Claim C8, corrected by requiring the index entries to carry pairwise
distinct names (the decoder stores them in a dict keyed by name, so a
repeated name collapses onto one subfile): for every byte stream accepted
by decode whose `N` index entries have distinct names, the returned
Container contains exactly `N` subfiles, one per index entry, in the order
the entries were read, each with the payload obtained by seeking to
`body_base + offset` and reading `payload_length` bytes (short at end of
stream, like `stream.read`).
-/
theorem C8_index_fidelity (hdrs : List (List Nat × HeaderValue)) (es : List IndexEntry)
    (body : List Nat)
    (hwfh : ∀ p ∈ hdrs, WFheader p) (hndh : (hdrs.map Prod.fst).Nodup)
    (hnd : (es.map IndexEntry.name).Nodup)
    (hb : ∀ e ∈ es, e.name.length < 2 ^ 32 ∧ e.ftypeCode < 2 ^ 32 ∧ e.plen < 2 ^ 32 ∧
      e.off < 2 ^ 32 ∧ e.elen < 2 ^ 32 ∧ e.enc < 2 ^ 32)
    (hft : ∀ e ∈ es, (KFNSubfileType.ofNat? e.ftypeCode).isSome)
    (hcount : es.length < 2 ^ 32) :
    read_kfn (MAGICB ++ (hdrs.flatMap writeHeader ++ (ENDHB ++
        (write_word_le es.length ++ (es.flatMap entryBytes ++ body))))) =
      some { headers := hdrs, subfiles := es.map (entrySubfile body) } ∧
    (es.map (entrySubfile body)).length = es.length := by
  refine ⟨?_, by simp⟩
  set input := MAGICB ++ (hdrs.flatMap writeHeader ++ (ENDHB ++
    (write_word_le es.length ++ (es.flatMap entryBytes ++ body)))) with hin
  have hlen4 : ¬ input.length < 4 := by rw [hin]; simp [MAGICB]
  have htake4 : input.take 4 = MAGICB := by rw [hin]; exact List.take_left' rfl
  have hdrop4 : input.drop 4 = hdrs.flatMap writeHeader ++ (ENDHB ++
      (write_word_le es.length ++ (es.flatMap entryBytes ++ body))) := by
    rw [hin]; exact List.drop_left' rfl
  have hfuel : hdrs.length < input.length + 1 := by
    have h1 := headers_length_le hdrs
    have h2 : (hdrs.flatMap writeHeader).length ≤ input.length := by
      rw [hin]; simp; omega
    omega
  have hrh := readHeaders_encode hdrs [] (input.length + 1)
    (write_word_le es.length ++ (es.flatMap entryBytes ++ body)) hfuel hwfh
    (by simpa using hndh)
  have hri := readIndex_entries es [] body hb (by simp) hnd
  have hbs := buildSubfiles_entries es body hft
  rw [read_kfn]
  rw [if_neg hlen4, htake4, if_neg (by simp), hdrop4, hrh]
  simp only [List.nil_append, Option.bind_eq_bind, Option.some_bind]
  rw [if_neg (by simp [write_word_le, toLE4]),
    List.take_left' (write_word_le_length _), fromLE_write_word_le _ hcount,
    List.drop_left' (write_word_le_length _), hri]
  simp [hbs]

/-- Witness for C8 (amended): two distinct-name entries decode to two
subfiles with the indexed payload slices (the second payload read runs past
the end of the body and comes back short, as `stream.read` does). -/
theorem C8_index_fidelity_witness :
    read_kfn (MAGICB ++ ([(RGHTtag, HeaderValue.num 1)].flatMap writeHeader ++ (ENDHB ++
        (write_word_le ([exEntryA, exEntryB].length) ++
          ([exEntryA, exEntryB].flatMap entryBytes ++ [7, 8, 9]))))) =
      some { headers := [(RGHTtag, HeaderValue.num 1)],
             subfiles := [exEntryA, exEntryB].map (entrySubfile [7, 8, 9]) } ∧
    ([exEntryA, exEntryB].map (entrySubfile [7, 8, 9])).length =
      [exEntryA, exEntryB].length :=
  C8_index_fidelity [(RGHTtag, HeaderValue.num 1)] [exEntryA, exEntryB] [7, 8, 9]
    (by decide) (by decide) (by decide) (by decide) (by decide) (by decide)

/-- Counterexample for C8 as stated: a stream whose declared subfile count
is 2 but whose two index entries share one name is accepted by decode, yet
the returned Container has a single subfile — the second entry overwrote
the first in the name-keyed `subfile_info` dict. -/
theorem C8_counterexample :
    read_kfn (MAGICB ++ (ENDHB ++ (write_word_le 2 ++
        (entryBytes { name := [], ftypeCode := 1, plen := 0, off := 0, elen := 0, enc := 0 } ++
         entryBytes { name := [], ftypeCode := 1, plen := 0, off := 0, elen := 0, enc := 0 })))) =
      some { headers := [],
             subfiles := [{ name := [], ftype := KFNSubfileType.SONG, data := [],
                            length := 0, is_encrypted := false }] } := by
  decide

/-! ### String groundwork for the ConfigParser round trip -/

theorem lstripB_head_nospace (l : List Nat) :
    ∀ c, (lstripB l).head? = some c → isSpaceB c = false := by
  induction l with
  | nil => intro c h; simp [lstripB] at h
  | cons x rest ih =>
      intro c h
      by_cases hx : isSpaceB x
      · rw [lstripB, if_pos hx] at h
        exact ih c h
      · rw [lstripB, if_neg hx] at h
        simp only [List.head?_cons, Option.some_inj] at h
        subst h
        simpa using hx

theorem lstripB_eq_self (l : List Nat)
    (h : ∀ c, l.head? = some c → isSpaceB c = false) : lstripB l = l := by
  cases l with
  | nil => rfl
  | cons x rest => rw [lstripB, if_neg (by simpa using h x (by simp))]

theorem lstripB_idem (l : List Nat) : lstripB (lstripB l) = lstripB l :=
  lstripB_eq_self (lstripB l) (lstripB_head_nospace l)

theorem mem_lstripB (l : List Nat) (a : Nat) (h : a ∈ lstripB l) : a ∈ l := by
  induction l with
  | nil => simpa [lstripB] using h
  | cons x rest ih =>
      by_cases hx : isSpaceB x
      · rw [lstripB, if_pos hx] at h
        exact List.mem_cons_of_mem x (ih h)
      · rwa [lstripB, if_neg hx] at h

theorem lstripB_isSuffix (l : List Nat) : (lstripB l).IsSuffix l := by
  induction l with
  | nil => simp [lstripB]
  | cons x rest ih =>
      by_cases hx : isSpaceB x
      · rw [lstripB, if_pos hx]
        exact ih.trans (List.suffix_cons x rest)
      · rw [lstripB, if_neg hx]

theorem rstripB_isPrefix (l : List Nat) : (rstripB l).IsPrefix l := by
  rw [rstripB]
  have h := lstripB_isSuffix l.reverse
  have h2 := List.reverse_prefix.mpr h
  rwa [List.reverse_reverse] at h2

theorem rstripB_idem (l : List Nat) : rstripB (rstripB l) = rstripB l := by
  simp [rstripB, List.reverse_reverse, lstripB_idem]

theorem mem_rstripB (l : List Nat) (a : Nat) (h : a ∈ rstripB l) : a ∈ l := by
  rw [rstripB] at h
  simpa using mem_lstripB l.reverse a (by simpa using h)

theorem rstripB_eq_self (l : List Nat)
    (h : ∀ c, l.getLast? = some c → isSpaceB c = false) : rstripB l = l := by
  rw [rstripB, lstripB_eq_self l.reverse (by intro c hc; exact h c (by
    rwa [List.head?_reverse] at hc)), List.reverse_reverse]

theorem rstripB_head? (l : List Nat) (hne : rstripB l ≠ []) :
    (rstripB l).head? = l.head? := by
  obtain ⟨t, ht⟩ := rstripB_isPrefix l
  conv_rhs => rw [← ht]
  cases hr : rstripB l with
  | nil => exact absurd hr hne
  | cons x r => simp [hr]

theorem rstripB_append_space (l : List Nat) : rstripB (l ++ [32]) = rstripB l := by
  simp only [rstripB, List.reverse_append, List.reverse_cons, List.reverse_nil,
    List.nil_append, List.cons_append]
  rfl

theorem rstripB_getLast?_nospace (l : List Nat) :
    ∀ c, (rstripB l).getLast? = some c → isSpaceB c = false := by
  intro c h
  rw [rstripB, ← List.head?_reverse, List.reverse_reverse] at h
  exact lstripB_head_nospace l.reverse c h

theorem lstripB_rstripB_comm (l : List Nat) (h : lstripB l = l) :
    lstripB (rstripB l) = rstripB l := by
  apply lstripB_eq_self
  intro c hc
  have hne : rstripB l ≠ [] := by
    intro h0
    rw [h0] at hc
    simp at hc
  rw [rstripB_head? l hne] at hc
  have := lstripB_head_nospace l c
  rw [h] at this
  exact this hc

theorem lstripB_stripB (l : List Nat) : lstripB (stripB l) = stripB l := by
  rw [stripB]
  exact lstripB_rstripB_comm (lstripB l) (lstripB_idem l)

theorem rstripB_stripB (l : List Nat) : rstripB (stripB l) = stripB l := by
  rw [stripB, rstripB_idem]

theorem mem_stripB (l : List Nat) (a : Nat) (h : a ∈ stripB l) : a ∈ l := by
  rw [stripB] at h
  exact mem_lstripB l a (mem_rstripB (lstripB l) a h)

theorem stripB_head_nospace (l : List Nat) :
    ∀ c, (stripB l).head? = some c → isSpaceB c = false := by
  intro c h
  have hne : stripB l ≠ [] := by intro h0; rw [h0] at h; simp at h
  rw [stripB] at h hne
  rw [rstripB_head? (lstripB l) hne] at h
  exact lstripB_head_nospace l c h

theorem stripB_eq_self (l : List Nat)
    (hh : ∀ c, l.head? = some c → isSpaceB c = false)
    (hl : ∀ c, l.getLast? = some c → isSpaceB c = false) : stripB l = l := by
  rw [stripB, lstripB_eq_self l hh, rstripB_eq_self l hl]

theorem lowerB_idem (c : Nat) : lowerB (lowerB c) = lowerB c := by
  by_cases h : 65 ≤ c ∧ c ≤ 90
  · have e : lowerB c = c + 32 := by rw [lowerB, if_pos h]
    rw [e]
    have e2 : lowerB (c + 32) = c + 32 := by rw [lowerB, if_neg (by omega)]
    rw [e2]
  · have e : lowerB c = c := by rw [lowerB, if_neg h]
    rw [e, e]

theorem lowerBytes_idem (l : List Nat) : lowerBytes (lowerBytes l) = lowerBytes l := by
  simp only [lowerBytes, List.map_map]
  exact List.map_congr_left fun c _ => lowerB_idem c

theorem isSpaceB_lowerB (c : Nat) : isSpaceB (lowerB c) = isSpaceB c := by
  by_cases h : 65 ≤ c ∧ c ≤ 90
  · rw [lowerB, if_pos h]
    have e1 : isSpaceB (c + 32) = false := by
      simp only [isSpaceB, Bool.or_eq_false_iff, beq_eq_false_iff_ne, ne_eq]
      omega
    have e2 : isSpaceB c = false := by
      simp only [isSpaceB, Bool.or_eq_false_iff, beq_eq_false_iff_ne, ne_eq]
      omega
    rw [e1, e2]
  · rw [lowerB, if_neg h]

theorem lowerB_eq_low (c d : Nat) (hd : d < 97) (h : lowerB c = d) : c = d := by
  by_cases hc : 65 ≤ c ∧ c ≤ 90
  · rw [lowerB, if_pos hc] at h; omega
  · rwa [lowerB, if_neg hc] at h

theorem lstripB_lowerBytes (l : List Nat) :
    lstripB (lowerBytes l) = lowerBytes (lstripB l) := by
  induction l with
  | nil => rfl
  | cons x rest ih =>
      by_cases hx : isSpaceB x
      · rw [lowerBytes, List.map_cons, lstripB, if_pos (by rwa [isSpaceB_lowerB]),
          lstripB, if_pos hx]
        exact ih
      · rw [lowerBytes, List.map_cons, lstripB, if_neg (by rwa [isSpaceB_lowerB]),
          lstripB, if_neg hx, lowerBytes, List.map_cons]

theorem rstripB_lowerBytes (l : List Nat) :
    rstripB (lowerBytes l) = lowerBytes (rstripB l) := by
  simp only [rstripB, lowerBytes]
  rw [← List.map_reverse, ← lowerBytes, lstripB_lowerBytes, lowerBytes, List.map_reverse]

theorem replTab_id (v : List Nat) (h : 10 ∉ v) : replTab v = v := by
  induction v with
  | nil => rfl
  | cons x rest ih =>
      have hx : x ≠ 10 := fun he => h (by simp [he])
      simp only [replTab, List.flatMap_cons, if_neg hx]
      simpa [replTab] using ih fun hm => h (by simp [hm])

theorem splitLines_ne_nil (bs : List Nat) : splitLines bs ≠ [] := by
  cases bs with
  | nil => simp [splitLines]
  | cons c rest =>
      rw [splitLines]
      by_cases hc : c = 10
      · simp [hc]
      · rw [if_neg hc]
        cases h : splitLines rest <;> simp

theorem mem_splitLines_no_nl (bs : List Nat) : ∀ p ∈ splitLines bs, 10 ∉ p := by
  induction bs with
  | nil => intro p hp; simp [splitLines] at hp; simp [hp]
  | cons c rest ih =>
      intro p hp
      rw [splitLines] at hp
      by_cases hc : c = 10
      · rw [if_pos hc] at hp
        rcases List.mem_cons.mp hp with h | h
        · simp [h]
        · exact ih p h
      · rw [if_neg hc] at hp
        cases hs : splitLines rest with
        | nil => exact absurd hs (splitLines_ne_nil rest)
        | cons l ls =>
            rw [hs] at hp
            rcases List.mem_cons.mp hp with h | h
            · subst h
              intro hm
              rcases List.mem_cons.mp hm with h10 | h10
              · exact hc h10.symm
              · exact ih l (by simp [hs]) h10
            · exact ih p (by simp [hs, List.mem_cons_of_mem l h])

theorem splitLines_append (l rest : List Nat) (h : 10 ∉ l) :
    splitLines (l ++ 10 :: rest) = l :: splitLines rest := by
  induction l with
  | nil => simp [splitLines]
  | cons c tl ih =>
      have hc : c ≠ 10 := fun he => h (by simp [he])
      rw [List.cons_append, splitLines, if_neg hc,
        ih fun hm => h (by simp [hm])]

theorem splitLines_join (ls : List (List Nat)) (h : ∀ p ∈ ls, 10 ∉ p) :
    splitLines (joinLines ls) = ls ++ [[]] := by
  induction ls with
  | nil => simp [joinLines, splitLines]
  | cons l tl ih =>
      have : joinLines (l :: tl) = l ++ 10 :: joinLines tl := by
        simp [joinLines]
      rw [this, splitLines_append l _ (h l (by simp)), ih fun p hp => h p (by simp [hp])]
      rfl

theorem lastClose_append_93 (l : List Nat) : lastClose (l ++ [93]) = some l.length := by
  induction l with
  | nil => rfl
  | cons c tl ih => rw [List.cons_append, lastClose, ih]; rfl

theorem lastClose_lt (l : List Nat) : ∀ i, lastClose l = some i → i < l.length := by
  induction l with
  | nil => intro i h; simp [lastClose] at h
  | cons c tl ih =>
      intro i h
      rw [lastClose] at h
      cases hr : lastClose tl with
      | some j =>
          rw [hr] at h
          simp only [Option.some_inj] at h
          have := ih j hr
          simp only [List.length_cons]
          omega
      | none =>
          rw [hr] at h
          by_cases hc : c = 93
          · rw [if_pos hc] at h
            simp only [Option.some_inj] at h
            simp only [List.length_cons]
            omega
          · rw [if_neg hc] at h; exact absurd h (by simp)

theorem lastClose_none_iff (l : List Nat) : lastClose l = none ↔ 93 ∉ l := by
  induction l with
  | nil => simp [lastClose]
  | cons c tl ih =>
      rw [lastClose]
      cases hr : lastClose tl with
      | some j =>
          have h93 : 93 ∈ tl := by
            by_contra hm
            rw [ih.mpr hm] at hr
            exact absurd hr (by simp)
          simp [List.mem_cons_of_mem c h93]
      | none =>
          have h93 : 93 ∉ tl := ih.mp hr
          by_cases hc : c = 93
          · subst hc
            simp
          · rw [if_neg hc]
            have : ¬ (93 = c) := fun he => hc he.symm
            simp [h93, this]

theorem lastClose_drop_mem (l : List Nat) :
    ∀ i, lastClose l = some i → ∀ m, m ≤ i → 93 ∈ l.drop m := by
  induction l with
  | nil => intro i h; simp [lastClose] at h
  | cons c tl ih =>
      intro i h m hm
      rw [lastClose] at h
      cases hr : lastClose tl with
      | some j =>
          rw [hr] at h
          simp only [Option.some_inj] at h
          subst h
          cases m with
          | zero =>
              have := ih j hr 0 (by omega)
              simp only [List.drop_zero] at this ⊢
              exact List.mem_cons_of_mem c this
          | succ m' =>
              rw [List.drop_succ_cons]
              exact ih j hr m' (by omega)
      | none =>
          rw [hr] at h
          by_cases hc : c = 93
          · rw [if_pos hc] at h
            simp only [Option.some_inj] at h
            have : m = 0 := by omega
            simp [this, hc]
          · rw [if_neg hc] at h; exact absurd h (by simp)

theorem mem_drop_lastClose (l : List Nat) :
    ∀ m, 93 ∈ l.drop m → ∃ i, lastClose l = some i ∧ m ≤ i := by
  induction l with
  | nil => intro m h; simp at h
  | cons c tl ih =>
      intro m h
      cases m with
      | zero =>
          rw [lastClose]
          cases hr : lastClose tl with
          | some j => exact ⟨j + 1, rfl, by omega⟩
          | none =>
              have hc : c = 93 := by
                simp only [List.drop_zero] at h
                rcases List.mem_cons.mp h with h93 | h93
                · exact h93.symm
                · exact absurd h93 ((lastClose_none_iff tl).mp hr)
              rw [if_pos hc]
              exact ⟨0, rfl, le_rfl⟩
      | succ m' =>
          rw [List.drop_succ_cons] at h
          obtain ⟨j, hj, hle⟩ := ih m' h
          rw [lastClose, hj]
          exact ⟨j + 1, rfl, by omega⟩

theorem foldlM_append_opt {s a : Type} (f : s → a → Option s) (l₁ l₂ : List a) (i : s) :
    (l₁ ++ l₂).foldlM f i = (l₁.foldlM f i).bind fun st => l₂.foldlM f st := by
  induction l₁ generalizing i with
  | nil => simp
  | cons x tl ih =>
      rw [List.cons_append]
      rw [List.foldlM_cons, List.foldlM_cons]
      cases hfx : f i x with
      | none => simp
      | some st => simp [ih]

theorem foldlM_inv {s a : Type} (P : s → Prop) (f : s → a → Option s) (Q : a → Prop)
    (hP : ∀ st x st', Q x → P st → f st x = some st' → P st') :
    ∀ (l : List a) (st st' : s), (∀ x ∈ l, Q x) → P st → l.foldlM f st = some st' →
      P st' := by
  intro l
  induction l with
  | nil =>
      intro st st' _ hst h
      simp only [List.foldlM_nil] at h
      cases h
      exact hst
  | cons x tl ih =>
      intro st st' hQ hst h
      rw [List.foldlM_cons] at h
      cases hfx : f st x with
      | none => rw [hfx] at h; simp at h
      | some st1 =>
          rw [hfx] at h
          simp only [Option.bind_eq_bind, Option.some_bind] at h
          exact ih st1 st' (fun y hy => hQ y (List.mem_cons_of_mem x hy))
            (hP st x st1 (hQ x (List.mem_cons_self x tl)) hst hfx) h

theorem findIdx?_cons_my (p : Nat → Bool) (x : Nat) (xs : List Nat) :
    (x :: xs).findIdx? p = if p x then some 0 else (xs.findIdx? p).map (· + 1) := by
  rw [List.findIdx?_cons]
  by_cases hx : p x
  · simp [hx]
  · simp only [hx, if_false]
    exact List.findIdx?_succ

theorem findIdx?_first (p : Nat → Bool) (l₁ l₂ : List Nat)
    (h : ∀ c ∈ l₁, p c = false) :
    (l₁ ++ l₂).findIdx? p = (l₂.findIdx? p).map (· + l₁.length) := by
  induction l₁ with
  | nil => simp
  | cons x tl ih =>
      rw [List.cons_append, findIdx?_cons_my, if_neg (by simp [h x (by simp)]),
        ih fun c hc => h c (by simp [hc])]
      cases l₂.findIdx? p <;> simp
      omega

theorem findIdx?_take_false (p : Nat → Bool) (l : List Nat) :
    ∀ d, l.findIdx? p = some d → ∀ c ∈ l.take d, p c = false := by
  induction l with
  | nil => intro d h; simp at h
  | cons x tl ih =>
      intro d h c hc
      rw [findIdx?_cons_my] at h
      by_cases hx : p x
      · rw [if_pos hx] at h
        simp only [Option.some_inj] at h
        rw [← h] at hc
        simp at hc
      · rw [if_neg hx] at h
        cases hr : tl.findIdx? p with
        | none => rw [hr] at h; simp at h
        | some j =>
            rw [hr] at h
            have hd : d = j + 1 := by
              cases h
              rfl
            rw [hd, List.take_succ_cons] at hc
            rcases List.mem_cons.mp hc with he | hm
            · rw [he]; simpa using hx
            · exact ih j hr c hm

/-! ### Re-parsing rendered documents -/

theorem pLine_blank (st : PState) : pLine st [] = some st := rfl

theorem drop2_mem (k X : List Nat) (a : Nat) (hk : k ≠ []) (h : a ∈ (k ++ X).drop 2) :
    a ∈ k.drop 2 ∨ a ∈ X := by
  obtain ⟨c, k', rfl⟩ := List.exists_cons_of_ne_nil hk
  rw [List.cons_append, List.drop_succ_cons] at h
  cases k' with
  | nil =>
      simp only [List.nil_append] at h
      exact Or.inr (List.mem_of_mem_drop h)
  | cons d k'' =>
      rw [List.cons_append, List.drop_succ_cons, List.drop_zero] at h
      rcases List.mem_append.mp h with hm | hm
      · exact Or.inl (by simpa using hm)
      · exact Or.inr hm

theorem pLine_section (st : PState) (name : List Nat)
    (hn0 : name ≠ []) (h10 : 10 ∉ name) (hnd : name ≠ DEFAULTB)
    (hfresh : name ∉ namesP st) :
    pLine st (91 :: (name ++ [93])) =
      some { done := finishP st, cur := some { name := name, items := [] } } := by
  have hstrip : stripB (91 :: (name ++ [93])) = 91 :: (name ++ [93]) := by
    apply stripB_eq_self
    · intro c hc
      simp only [List.head?_cons, Option.some_inj] at hc
      subst hc
      decide
    · intro c hc
      rw [show (91 : Nat) :: (name ++ [93]) = (91 :: name) ++ [93] by simp,
        List.getLast?_concat] at hc
      simp only [Option.some_inj] at hc
      subst hc
      decide
  have hlast : lastClose (91 :: (name ++ [93])) = some (name.length + 1) := by
    have := lastClose_append_93 (91 :: name)
    simpa using this
  have hlen : 1 ≤ name.length := List.length_pos.mpr hn0
  simp only [pLine, hstrip, hlast]
  rw [if_neg (by simp), if_neg (by simp), if_neg (by simp [isSpaceB]),
    if_pos (by simp), if_pos (by omega : 2 ≤ name.length + 1)]
  rw [List.drop_succ_cons, List.drop_zero, Nat.add_sub_cancel, List.take_left' rfl]
  rw [pSection, if_neg hnd, if_neg hfresh]

theorem pOption_item (st : PState) (sec : ConfigSection) (k R v : List Nat)
    (hcur : st.cur = some sec)
    (hk0 : k ≠ []) (hkchars : ∀ c ∈ k, c ≠ 61 ∧ c ≠ 58 ∧ c ≠ 10)
    (hklow : lowerBytes k = k) (hkr : rstripB k = k)
    (hdup : k ∉ sec.items.map Prod.fst)
    (hR : stripB R = v) :
    pOption st (k ++ 32 :: 61 :: R) =
      some { st with cur := some { sec with items := sec.items ++ [(k, v)] } } := by
  have hpfalse : ∀ c ∈ k, (c == 61 || c == 58) = false := by
    intro c hc
    obtain ⟨h61, h58, -⟩ := hkchars c hc
    simp [h61, h58]
  have hfind : (k ++ 32 :: 61 :: R).findIdx? (fun c => c == 61 || c == 58) =
      some (k.length + 1) := by
    rw [findIdx?_first _ k _ hpfalse, findIdx?_cons_my, if_neg (by decide),
      findIdx?_cons_my, if_pos (by decide)]
    simp [Nat.add_comm]
  have htake : (k ++ 32 :: 61 :: R).take (k.length + 1) = k ++ [32] := by
    rw [List.take_append]
    simp
  have hdrop : (k ++ 32 :: 61 :: R).drop (k.length + 1 + 1) = R := by
    rw [show k ++ 32 :: 61 :: R = (k ++ [32, 61]) ++ R by simp,
      List.drop_left' (by simp)]
  have hkey : lowerBytes (rstripB ((k ++ 32 :: 61 :: R).take (k.length + 1))) = k := by
    rw [htake, rstripB_append_space, hkr, hklow]
  simp only [pOption, hcur, hfind, hkey, hdrop, hR]
  rw [if_neg (by simpa using hk0), if_neg (by simpa using hdup)]

theorem lstripB_append_left (x y : List Nat) (hx : lstripB x = x) (hne : x ≠ []) :
    lstripB (x ++ y) = x ++ y := by
  obtain ⟨a, x', rfl⟩ := List.exists_cons_of_ne_nil hne
  by_cases hs : isSpaceB a
  · rw [lstripB, if_pos hs] at hx
    have hlen := (lstripB_isSuffix x').length_le
    rw [hx] at hlen
    simp at hlen
  · rw [List.cons_append, lstripB, if_neg hs]

theorem rstripB_append_right (x y : List Nat) (hy : rstripB y = y) (hne : y ≠ []) :
    rstripB (x ++ y) = x ++ y := by
  have hy' : lstripB y.reverse = y.reverse := by
    have := congrArg List.reverse hy
    rwa [rstripB, List.reverse_reverse] at this
  rw [rstripB, List.reverse_append,
    lstripB_append_left y.reverse x.reverse hy' (by simpa using hne),
    List.reverse_append, List.reverse_reverse, List.reverse_reverse]

theorem pLine_item (st : PState) (sec : ConfigSection) (k v : List Nat)
    (hcur : st.cur = some sec) (hitem : WFitem k v)
    (hdup : k ∉ sec.items.map Prod.fst) :
    pLine st (itemLine k v) =
      some { st with cur := some { sec with items := sec.items ++ [(k, v)] } } := by
  obtain ⟨⟨hk0, hkchars, hklow, hkr, hkhead⟩, ⟨hv10, hvl, hvr⟩, hsect⟩ := hitem
  have hc0 : ∃ c k', k = c :: k' := by
    cases k with
    | nil => exact absurd rfl hk0
    | cons c k' => exact ⟨c, k', rfl⟩
  obtain ⟨c, k', hk⟩ := hc0
  obtain ⟨hcsp, hc35, hc59⟩ := hkhead c (by simp [hk])
  have hrepl : replTab v = v := replTab_id v hv10
  have hline : itemLine k v = k ++ 32 :: 61 :: 32 :: v := by
    rw [itemLine, hrepl]
  have hR : stripB (32 :: v) = v := by
    rw [stripB]
    have h32 : lstripB (32 :: v) = lstripB v := by rw [lstripB, if_pos (by decide)]
    rw [h32, hvl, hvr]
  have hstrip : stripB (k ++ 32 :: 61 :: 32 :: v) =
      k ++ 32 :: 61 :: (if v = [] then [] else 32 :: v) := by
    cases v with
    | nil =>
        rw [if_pos rfl]
        have e1 : k ++ 32 :: 61 :: 32 :: ([] : List Nat) = (k ++ [32, 61]) ++ [32] := by
          simp
        rw [e1, stripB]
        have hls : lstripB ((k ++ [32, 61]) ++ [32]) = (k ++ [32, 61]) ++ [32] := by
          apply lstripB_eq_self
          intro d hd
          rw [hk] at hd
          simp only [List.cons_append, List.append_assoc, List.head?_cons,
            Option.some_inj] at hd
          subst hd
          exact hcsp
        rw [hls, rstripB_append_space]
        have e2 : k ++ 32 :: 61 :: ([] : List Nat) = k ++ [32, 61] := by simp
        rw [e2]
        apply rstripB_eq_self
        intro d hd
        rw [show k ++ [32, 61] = (k ++ [32]) ++ [61] by simp,
          List.getLast?_concat] at hd
        simp only [Option.some_inj] at hd
        subst hd
        decide
    | cons w v' =>
        rw [if_neg (by simp)]
        have hl1 : lstripB (k ++ 32 :: 61 :: 32 :: (w :: v')) =
            k ++ 32 :: 61 :: 32 :: (w :: v') := by
          apply lstripB_eq_self
          intro d hd
          rw [hk] at hd
          simp only [List.cons_append, List.head?_cons, Option.some_inj] at hd
          subst hd
          exact hcsp
        have hr1 : rstripB ((k ++ [32, 61, 32]) ++ (w :: v')) =
            (k ++ [32, 61, 32]) ++ (w :: v') :=
          rstripB_append_right _ _ hvr (by simp)
        rw [stripB, hl1, show k ++ 32 :: 61 :: 32 :: (w :: v') =
          (k ++ [32, 61, 32]) ++ (w :: v') by simp, hr1]
  rw [hline, pLine]
  simp only [hstrip]
  rw [if_neg (by rw [hk]; simp),
    if_neg (by rw [hk]; simp [fun h => hc35 h, fun h => hc59 h]),
    if_neg (by rw [hk]; simpa using hcsp)]
  have hopt : pOption st (k ++ 32 :: 61 :: (if v = [] then [] else 32 :: v)) =
      some { st with cur := some { sec with items := sec.items ++ [(k, v)] } } := by
    by_cases hv : v = []
    · subst hv
      rw [if_pos rfl]
      exact pOption_item st sec k [] [] hcur hk0 hkchars hklow hkr hdup rfl
    · rw [if_neg hv]
      exact pOption_item st sec k (32 :: v) v hcur hk0 hkchars hklow hkr hdup hR
  by_cases hc91 : c = 91
  · obtain ⟨h93k, h93v⟩ := hsect (by rw [hk, hc91]; simp)
    rw [if_pos (by rw [hk, hc91]; simp)]
    have hnosec : ∀ i, lastClose (k ++ 32 :: 61 :: (if v = [] then [] else 32 :: v)) =
        some i → ¬ 2 ≤ i := by
      intro i hi h2
      have hmem := lastClose_drop_mem _ i hi 2 h2
      rcases drop2_mem k _ 93 hk0 hmem with hm | hm
      · exact h93k hm
      · rcases List.mem_cons.mp hm with h | h
        · exact absurd h (by decide)
        · rcases List.mem_cons.mp h with h' | h'
          · exact absurd h' (by decide)
          · by_cases hv : v = []
            · rw [if_pos hv] at h'
              simp at h'
            · rw [if_neg hv] at h'
              rcases List.mem_cons.mp h' with h'' | h''
              · exact absurd h'' (by decide)
              · exact h93v h''
    cases hl : lastClose (k ++ 32 :: 61 :: (if v = [] then [] else 32 :: v)) with
    | none =>
        simp only [hl]
        exact hopt
    | some i =>
        simp only [hl]
        rw [if_neg (hnosec i hl)]
        exact hopt
  · rw [if_neg (by rw [hk]; simpa using hc91)]
    exact hopt

theorem fold_items (n : List Nat) (done : List ConfigSection) :
    ∀ (items acc : List (List Nat × List Nat)),
    (∀ p ∈ items, WFitem p.1 p.2) →
    (((acc ++ items).map Prod.fst).Nodup) →
    (items.map (fun p => itemLine p.1 p.2)).foldlM pLine
        { done := done, cur := some { name := n, items := acc } } =
      some { done := done, cur := some { name := n, items := acc ++ items } } := by
  intro items
  induction items with
  | nil => intro acc _ _; simp
  | cons p tl ih =>
      intro acc hwf hnd
      obtain ⟨k, v⟩ := p
      have hdup : k ∉ acc.map Prod.fst := by
        intro hm
        have hnd2 : (acc.map Prod.fst ++ k :: tl.map Prod.fst).Nodup := by
          simpa using hnd
        exact (List.disjoint_of_nodup_append hnd2) hm (List.mem_cons_self k _)
      have hstep := pLine_item { done := done, cur := some { name := n, items := acc } }
        { name := n, items := acc } k v rfl (hwf (k, v) (by simp)) hdup
      rw [List.map_cons, List.foldlM_cons, hstep]
      simp only [Option.bind_eq_bind, Option.some_bind]
      have := ih (acc ++ [(k, v)]) (fun q hq => hwf q (by simp [hq]))
        (by simpa [List.append_assoc] using hnd)
      simpa [List.append_assoc] using this

theorem fold_sectionLines (s : ConfigSection) (st : PState)
    (hws : WFsec s) (hfresh : s.name ∉ namesP st) :
    (sectionLines s).foldlM pLine st = some { done := finishP st, cur := some s } := by
  obtain ⟨hn0, h10, hnd, hndk, hwf⟩ := hws
  have hsec := pLine_section st s.name hn0 h10 hnd hfresh
  rw [sectionLines, List.foldlM_cons, hsec]
  simp only [Option.bind_eq_bind, Option.some_bind]
  rw [foldlM_append_opt]
  have hitems := fold_items s.name (finishP st) s.items [] hwf (by simpa using hndk)
  simp only [List.nil_append] at hitems
  rw [hitems]
  simp only [Option.bind_eq_bind, Option.some_bind, List.foldlM_cons, pLine_blank,
    List.foldlM_nil]
  rfl

theorem fold_renderLines (doc : List ConfigSection) :
    ∀ (st : PState),
    (∀ s ∈ doc, WFsec s) →
    ((namesP st ++ doc.map ConfigSection.name).Nodup) →
    ∃ st', (renderLines doc).foldlM pLine st = some st' ∧
      finishP st' = finishP st ++ doc := by
  induction doc with
  | nil => intro st _ _; exact ⟨st, by simp [renderLines], by simp⟩
  | cons s rest ih =>
      intro st hwf hnd
      have hfresh : s.name ∉ namesP st := by
        intro hm
        have hnd2 : (namesP st ++ s.name :: rest.map ConfigSection.name).Nodup := by
          simpa using hnd
        exact (List.disjoint_of_nodup_append hnd2) hm (List.mem_cons_self _ _)
      have hsec := fold_sectionLines s st (hwf s (by simp)) hfresh
      have hst1 : namesP { done := finishP st, cur := some s } = namesP st ++ [s.name] := by
        simp [namesP, finishP]
      obtain ⟨st', hfold, hfin⟩ := ih { done := finishP st, cur := some s }
        (fun q hq => hwf q (by simp [hq]))
        (by rw [hst1]; simpa [List.append_assoc] using hnd)
      refine ⟨st', ?_, ?_⟩
      · rw [renderLines, List.flatMap_cons, foldlM_append_opt, hsec]
        simp only [Option.bind_eq_bind, Option.some_bind]
        exact hfold
      · rw [hfin]
        simp [finishP, List.append_assoc]

theorem renderLines_no_nl (doc : List ConfigSection) (h : ∀ s ∈ doc, WFsec s) :
    ∀ p ∈ renderLines doc, 10 ∉ p := by
  intro p hp
  rw [renderLines] at hp
  obtain ⟨s, hs, hps⟩ := List.mem_flatMap.mp hp
  obtain ⟨hn0, h10, -, -, hwf⟩ := h s hs
  rw [sectionLines] at hps
  rcases List.mem_cons.mp hps with he | hm
  · subst he
    intro hmem
    rcases List.mem_cons.mp hmem with h91 | hmem2
    · exact absurd h91 (by decide)
    · rcases List.mem_append.mp hmem2 with hmm | hmm
      · exact h10 hmm
      · simp at hmm
  · rcases List.mem_append.mp hm with hml | hml
    · obtain ⟨q, hq, hqe⟩ := List.mem_map.mp hml
      obtain ⟨⟨-, hkchars, -, -, -⟩, ⟨hv10, -, -⟩, -⟩ := hwf q hq
      subst hqe
      rw [itemLine, replTab_id q.2 hv10]
      intro hmem
      rcases List.mem_append.mp hmem with hmm | hmm
      · exact (hkchars 10 hmm).2.2 rfl
      · rcases List.mem_cons.mp hmm with h32 | hmm2
        · exact absurd h32 (by decide)
        · rcases List.mem_cons.mp hmm2 with h61 | hmm3
          · exact absurd h61 (by decide)
          · rcases List.mem_cons.mp hmm3 with h32b | hmm4
            · exact absurd h32b (by decide)
            · exact hv10 hmm4
    · simp only [List.mem_singleton] at hml
      subst hml
      simp

theorem parse_render (doc : List ConfigSection) (h : WFdoc doc) :
    parseConfig (renderConfig doc) = some doc := by
  obtain ⟨hnd, hsec⟩ := h
  have hlines := renderLines_no_nl doc hsec
  rw [parseConfig, renderConfig, splitLines_join _ hlines, foldlM_append_opt]
  obtain ⟨st', hfold, hfin⟩ := fold_renderLines doc { done := [], cur := none } hsec
    (by simpa [namesP, finishP] using hnd)
  rw [hfold]
  simp only [Option.bind_eq_bind, Option.some_bind, List.foldlM_cons, pLine_blank,
    List.foldlM_nil]
  have hdoc : finishP st' = doc := by
    rw [hfin]
    simp [finishP]
  show Option.map finishP (some st') = some doc
  rw [Option.map_some', hdoc]

theorem mem_drop_of_prefix (X Y : List Nat) (n : Nat) (a : Nat)
    (h : X.IsPrefix Y) (hm : a ∈ X.drop n) : a ∈ Y.drop n := by
  obtain ⟨t, rfl⟩ := h
  by_cases hn : n ≤ X.length
  · rw [List.drop_append_of_le_length hn]
    exact List.mem_append_left t hm
  · rw [List.drop_eq_nil_of_le (by omega)] at hm
    simp at hm

theorem mem_drop_of_le (l : List Nat) (m n : Nat) (a : Nat) (hle : n ≤ m)
    (hm : a ∈ l.drop m) : a ∈ l.drop n := by
  have : l.drop m = (l.drop n).drop (m - n) := by
    rw [List.drop_drop]
    congr 1
    omega
  rw [this] at hm
  exact List.mem_of_mem_drop hm

theorem head?_take_pos (l : List Nat) (d : Nat) (hd : 1 ≤ d) :
    (l.take d).head? = l.head? := by
  cases l with
  | nil => simp
  | cons x xs =>
      obtain ⟨d', rfl⟩ : ∃ d', d = d' + 1 := ⟨d - 1, by omega⟩
      simp [List.take_succ_cons]

theorem pOption_preserves (st : PState) (l : List Nat) (st' : PState)
    (h10 : 10 ∉ l)
    (hhe : ∀ c, l.head? = some c → isSpaceB c = false ∧ c ≠ 35 ∧ c ≠ 59)
    (hnosec : l.head? = some 91 → 93 ∉ l.drop 2)
    (hst : WFstate st) (h : pOption st l = some st') : WFstate st' := by
  rw [pOption] at h
  cases hcur : st.cur with
  | none => rw [hcur] at h; simp at h
  | some sec =>
      rw [hcur] at h
      cases hfind : l.findIdx? (fun c => c == 61 || c == 58) with
      | none => rw [hfind] at h; simp at h
      | some d =>
          rw [hfind] at h
          simp only [] at h
          split at h
          · exact absurd h (by simp)
          · split at h
            · exact absurd h (by simp)
            · rename_i hkey0 hdup
              simp only [Option.some_inj] at h
              subst h
              -- names of the state are unchanged
              obtain ⟨hnd, hwf⟩ := hst
              have hfin : finishP st = st.done ++ [sec] := by
                simp [finishP, hcur]
              have hsecmem : sec ∈ finishP st := by
                rw [hfin]; simp
              obtain ⟨hsn0, hsn10, hsnD, hsknd, hswf⟩ := hwf sec hsecmem
              -- shape facts about the new key
              set T := rstripB (l.take d) with hT
              set key := lowerBytes T with hkeydef
              have hkne : key ≠ [] := by simpa using hkey0
              have hTne : T ≠ [] := by
                intro h0
                rw [hkeydef, h0] at hkne
                exact hkne rfl
              have hd1 : 1 ≤ d := by
                by_contra hd0
                have : d = 0 := by omega
                rw [hT, this] at hTne
                simp [rstripB, lstripB] at hTne
              have hlne : l ≠ [] := by
                intro h0
                rw [hT, h0] at hTne
                simp [rstripB, lstripB] at hTne
              have hTpre : T.IsPrefix (l.take d) := by
                rw [hT]; exact rstripB_isPrefix _
              have hmemT : ∀ a ∈ T, a ∈ l := by
                intro a ha
                exact List.mem_of_mem_take (mem_rstripB _ a ha)
              have hheadT : T.head? = l.head? := by
                rw [hT, rstripB_head? _ hTne, head?_take_pos l d hd1]
              have hheadkey : key.head? = T.head?.map lowerB := by
                rw [hkeydef, lowerBytes, List.head?_map]
              -- the key is well-formed
              have hwfkey : WFkey key := by
                refine ⟨hkne, ?_, ?_, ?_, ?_⟩
                · intro c hc
                  obtain ⟨b, hb, hbc⟩ := List.mem_map.mp hc
                  have hb61 := findIdx?_take_false _ l d hfind b (mem_rstripB _ b hb)
                  simp only [Bool.or_eq_false_iff, beq_eq_false_iff_ne, ne_eq] at hb61
                  refine ⟨?_, ?_, ?_⟩
                  · intro he; rw [he] at hbc; exact hb61.1 (lowerB_eq_low b 61 (by omega) hbc)
                  · intro he; rw [he] at hbc; exact hb61.2 (lowerB_eq_low b 58 (by omega) hbc)
                  · intro he; rw [he] at hbc
                    exact h10 (hbc ▸ (lowerB_eq_low b 10 (by omega) hbc ▸ hmemT b hb))
                · rw [hkeydef, lowerBytes_idem]
                · rw [hkeydef, rstripB_lowerBytes, hT, rstripB_idem]
                · intro c hc
                  rw [hheadkey, hheadT] at hc
                  cases hl : l.head? with
                  | none => rw [hl] at hc; simp at hc
                  | some b =>
                      rw [hl] at hc
                      simp only [Option.map_some', Option.some_inj] at hc
                      obtain ⟨hbs, hb35, hb59⟩ := hhe b hl
                      refine ⟨?_, ?_, ?_⟩
                      · rw [← hc, isSpaceB_lowerB]; exact hbs
                      · intro he; rw [he] at hc; exact hb35 (lowerB_eq_low b 35 (by omega) hc)
                      · intro he; rw [he] at hc; exact hb59 (lowerB_eq_low b 59 (by omega) hc)
              -- the value is well-formed
              set value := stripB (l.drop (d + 1)) with hvdef
              have hwfval : WFval value := by
                refine ⟨?_, lstripB_stripB _, rstripB_stripB _⟩
                intro hm
                exact h10 (List.mem_of_mem_drop (mem_stripB _ 10 hm))
              -- the rendered line of the new item cannot look like a section
              have hsectcond : key.head? = some 91 → 93 ∉ key.drop 2 ∧ 93 ∉ value := by
                intro h91
                have hl91 : l.head? = some 91 := by
                  rw [hheadkey, hheadT] at h91
                  cases hl : l.head? with
                  | none => rw [hl] at h91; simp at h91
                  | some b =>
                      rw [hl] at h91
                      simp only [Option.map_some', Option.some_inj] at h91
                      have hb : b = 91 := lowerB_eq_low b 91 (by omega) h91
                      rw [hb]
                have hno93 := hnosec hl91
                constructor
                · intro hm
                  rw [hkeydef, lowerBytes, ← List.map_drop] at hm
                  obtain ⟨b, hb, hbc⟩ := List.mem_map.mp hm
                  have hb93 : b = 93 := lowerB_eq_low b 93 (by omega) hbc
                  subst hb93
                  have : (93 : Nat) ∈ (l.take d).drop 2 :=
                    mem_drop_of_prefix T (l.take d) 2 93 hTpre hb
                  rw [List.drop_take] at this
                  exact hno93 (List.mem_of_mem_take this)
                · intro hm
                  have h1 : (93 : Nat) ∈ l.drop (d + 1) := mem_stripB _ 93 hm
                  exact hno93 (mem_drop_of_le l (d + 1) 2 93 (by omega) h1)
              -- assemble the new state invariant
              constructor
              · simpa [namesP, finishP, hcur] using hnd
              · intro s hs
                simp only [finishP, List.mem_append, Option.toList_some,
                  List.mem_singleton] at hs
                rcases hs with hs | hs
                · exact (⟨hnd, hwf⟩ : WFstate st).2 s (by rw [hfin]; simp [hs])
                · subst hs
                  refine ⟨hsn0, hsn10, hsnD, ?_, ?_⟩
                  · have he : ((sec.items ++ [(key, value)]).map Prod.fst) =
                        sec.items.map Prod.fst ++ [key] := by simp
                    rw [he, List.nodup_append]
                    refine ⟨hsknd, List.nodup_singleton key, ?_⟩
                    intro a ha hb
                    simp only [List.mem_singleton] at hb
                    subst hb
                    exact hdup ha
                  · intro p hp
                    rcases List.mem_append.mp hp with hp | hp
                    · exact hswf p hp
                    · simp only [List.mem_singleton] at hp
                      subst hp
                      exact ⟨hwfkey, hwfval, hsectcond⟩

theorem pSection_preserves (st : PState) (name : List Nat) (st' : PState)
    (hn0 : name ≠ []) (h10 : 10 ∉ name) (hst : WFstate st)
    (h : pSection st name = some st') : WFstate st' := by
  rw [pSection] at h
  split at h
  · exact absurd h (by simp)
  · split at h
    · exact absurd h (by simp)
    · rename_i hnD hfresh
      simp only [Option.some_inj] at h
      subst h
      obtain ⟨hnd, hwf⟩ := hst
      constructor
      · have he : namesP { done := finishP st, cur := some { name := name, items := [] } } =
            namesP st ++ [name] := by simp [namesP, finishP]
        rw [he, List.nodup_append]
        refine ⟨hnd, List.nodup_singleton name, ?_⟩
        intro a ha hb
        simp only [List.mem_singleton] at hb
        subst hb
        exact hfresh ha
      · intro s hs
        simp only [finishP, List.mem_append, Option.toList_some, List.mem_singleton] at hs
        rcases hs with hs | hs
        · exact hwf s (by rw [finishP]; exact List.mem_append.mpr hs)
        · subst hs
          exact ⟨hn0, h10, hnD, List.nodup_nil, by simp⟩

theorem pLine_preserves (st : PState) (line : List Nat) (st' : PState)
    (h10 : 10 ∉ line) (hst : WFstate st) (h : pLine st line = some st') :
    WFstate st' := by
  have h10l : 10 ∉ stripB line := fun hm => h10 (mem_stripB line 10 hm)
  have hhe : ∀ c, (stripB line).head? = some c →
      (stripB line).headD 0 = c := by
    intro c hc
    cases hli : stripB line with
    | nil => rw [hli] at hc; simp at hc
    | cons x xs =>
        rw [hli] at hc
        simp only [List.head?_cons, Option.some_inj] at hc
        simp [hc]
  simp only [pLine] at h
  split at h
  · cases h; exact hst
  · split at h
    · cases h; exact hst
    · split at h
      · exact absurd h (by simp)
      · rename_i hblank hcomment hspace
        have hheads : ∀ c, (stripB line).head? = some c →
            isSpaceB c = false ∧ c ≠ 35 ∧ c ≠ 59 := by
          intro c hc
          refine ⟨stripB_head_nospace line c hc, ?_, ?_⟩
          · intro he
            exact hcomment (Or.inl (by rw [hhe c hc, he]))
          · intro he
            exact hcomment (Or.inr (by rw [hhe c hc, he]))
        split at h
        · rename_i h91
          split at h
          · rename_i i heq
            split at h
            · -- a recognised section header
              rename_i h2
              have hi := lastClose_lt (stripB line) i heq
              apply pSection_preserves st _ st' ?_ ?_ hst h
              · have hlen : (((stripB line).drop 1).take (i - 1)).length = i - 1 := by
                  rw [List.length_take, List.length_drop]
                  omega
                intro h0
                rw [h0] at hlen
                simp at hlen
                omega
              · intro hm
                exact h10l (List.mem_of_mem_drop (List.mem_of_mem_take hm))
            · rename_i h2
              apply pOption_preserves st (stripB line) st' h10l hheads ?_ hst h
              intro _ hm
              obtain ⟨i', hi', hle'⟩ := mem_drop_lastClose (stripB line) 2 hm
              rw [heq] at hi'
              simp only [Option.some_inj] at hi'
              omega
          · rename_i heq
            apply pOption_preserves st (stripB line) st' h10l hheads ?_ hst h
            intro _ hm
            obtain ⟨i', hi', -⟩ := mem_drop_lastClose (stripB line) 2 hm
            rw [heq] at hi'
            simp at hi'
        · rename_i h91
          apply pOption_preserves st (stripB line) st' h10l hheads ?_ hst h
          intro hc
          exact absurd (hhe 91 hc) h91

theorem parseConfig_WF (bs : List Nat) (doc : List ConfigSection)
    (h : parseConfig bs = some doc) : WFdoc doc := by
  rw [parseConfig] at h
  obtain ⟨st', hfold, hfin⟩ := Option.map_eq_some'.mp h
  have hwf : WFstate st' := by
    apply foldlM_inv WFstate pLine (fun line => 10 ∉ line) ?_ (splitLines bs)
      { done := [], cur := none } st' (mem_splitLines_no_nl bs) ?_ hfold
    · intro s x s' hQ hP hs
      exact pLine_preserves s x s' hQ hP hs
    · exact ⟨by simp [namesP, finishP], by simp [finishP]⟩
  subst hfin
  exact ⟨hwf.1, hwf.2⟩

/-! ### Claim C7: rewrite formatting -/

theorem WFdoc_filter (doc : List ConfigSection) (h : WFdoc doc) :
    WFdoc (doc.filter keepSec) := by
  obtain ⟨hnd, hwf⟩ := h
  exact ⟨List.Nodup.sublist (List.Sublist.map ConfigSection.name
    (List.filter_sublist doc)) hnd,
    fun s hs => hwf s (List.mem_of_mem_filter hs)⟩

theorem roiGo_ok_ids (suffix : List ConfigSection) :
    ∀ (done d2 : List ConfigSection),
    (((done ++ suffix).map ConfigSection.name).Nodup) →
    roiGo (suffix.map ConfigSection.name) (done ++ suffix) = .ok d2 →
    ∀ s ∈ suffix, effName s.name = true → (getSecId s).isSome := by
  induction suffix with
  | nil => intro done d2 _ _ s hs; simp at hs
  | cons s rest ih =>
      intro done d2 hnd h q hq heff
      have hfreshdone : ∀ p ∈ done, p.name ≠ s.name := by
        intro p hp he
        have hnd2 : (done.map ConfigSection.name ++
            s.name :: rest.map ConfigSection.name).Nodup := by simpa using hnd
        exact (List.disjoint_of_nodup_append hnd2)
          (he ▸ List.mem_map_of_mem ConfigSection.name hp) (List.mem_cons_self _ _)
      have hshift : done ++ s :: rest = (done ++ [s]) ++ rest := by simp
      have hnd' : (((done ++ [s]) ++ rest).map ConfigSection.name).Nodup := by
        rw [← hshift]; exact hnd
      rw [List.map_cons] at h
      by_cases he : effName s.name
      · have hfind : findSec (done ++ s :: rest) s.name = some s := by
          rw [findSec_append_not done _ _ hfreshdone]
          simp [findSec]
        cases hgs : getSecId s with
        | none =>
            have hgid : getintId (done ++ s :: rest) s.name = none := by
              simp only [getintId, hfind, Option.bind_eq_bind, Option.some_bind]
              simp only [getSecId] at hgs
              exact hgs
            rw [roiGo, if_neg (by simp [he]), hgid] at h
            simp at h
        | some i =>
            rcases List.mem_cons.mp hq with hqs | hqr
            · rw [hqs, hgs]; rfl
            · have hgid : getintId (done ++ s :: rest) s.name = some i := by
                simp only [getintId, hfind, Option.bind_eq_bind, Option.some_bind]
                simp only [getSecId] at hgs
                exact hgs
              rw [roiGo_cons_eff s.name _ _ he i hgid] at h
              by_cases hin : i ∈ VALID_EFFECT_IDS
              · rw [if_pos hin, hshift] at h
                exact ih (done ++ [s]) d2 hnd' h q hqr heff
              · rw [if_neg hin,
                  delSection_append_not done _ _ hfreshdone] at h
                simp only [delSection, if_pos rfl] at h
                have hndr : ((done ++ rest).map ConfigSection.name).Nodup := by
                  have hsub : (done ++ rest).Sublist (done ++ s :: rest) :=
                    List.Sublist.append_left (List.sublist_cons_self s rest) done
                  exact List.Nodup.sublist (List.Sublist.map ConfigSection.name hsub) hnd
                exact ih done d2 hndr h q hqr heff
      · rcases List.mem_cons.mp hq with hqs | hqr
        · rw [hqs] at heff; exact absurd heff (by simpa using he)
        · rw [roiGo_cons_noneff s.name _ _ (by simpa using he), hshift] at h
          exact ih (done ++ [s]) d2 hnd' h q hqr heff

theorem removeInvalid_eq_filter (doc d2 : List ConfigSection)
    (hnd : (doc.map ConfigSection.name).Nodup)
    (h : removeInvalidEffects doc = .ok d2) : d2 = doc.filter keepSec := by
  have hid := roiGo_ok_ids doc [] d2 (by simpa using hnd) (by simpa using h)
  have hfl := roiGo_filter doc [] (by simpa using hnd) hid
  rw [removeInvalidEffects] at h
  simp only [List.nil_append] at hfl
  rw [hfl] at h
  simpa using h.symm

theorem removeInvalid_id (d2 : List ConfigSection)
    (hnd : (d2.map ConfigSection.name).Nodup)
    (hkeep : ∀ s ∈ d2, keepSec s = true) :
    removeInvalidEffects d2 = .ok d2 := by
  have hid : ∀ s ∈ d2, effName s.name = true → (getSecId s).isSome := by
    intro s hs heff
    have := hkeep s hs
    rw [keepSec, heff] at this
    cases hgs : getSecId s with
    | none => rw [hgs] at this; simp at this
    | some i => rfl
  have hfl := roiGo_filter d2 [] (by simpa using hnd) hid
  simp only [List.nil_append] at hfl
  rw [removeInvalidEffects, hfl, List.filter_eq_self.mpr hkeep]

theorem rewriteSong_song_eq (sf : KFNSubfile) (doc doc2 : List ConfigSection)
    (hty : sf.ftype = KFNSubfileType.SONG)
    (hp : parseConfig sf.data = some doc)
    (hf : removeInvalidEffects doc = .ok doc2) :
    rewriteSong sf =
      .ok { sf with data := renderConfig doc2, length := (renderConfig doc2).length } := by
  simp [rewriteSong, hty, hp, hf]

/--
Claim C7, corrected.  The Config Rewriter does not preserve the exact
textual formatting of retained sections: it re-renders the document through
the general parser's canonical convention (`key = value` with a padded
delimiter, keys lowercased, a blank line after every section).  What does
hold: the rewrite emits exactly the canonical rendering of the filtered
document, the retained sections keep their parsed content and order
(re-parsing the output yields exactly the filtered document, which is a
sublist of the parsed input), and the subfile's declared plaintext length
is set to the new payload buffer's length.
-/
theorem C7_rewrite_canonical (sf : KFNSubfile) (doc doc2 : List ConfigSection)
    (hty : sf.ftype = KFNSubfileType.SONG)
    (hp : parseConfig sf.data = some doc)
    (hf : removeInvalidEffects doc = .ok doc2) :
    rewriteSong sf =
      .ok { sf with data := renderConfig doc2, length := (renderConfig doc2).length } ∧
    parseConfig (renderConfig doc2) = some doc2 ∧
    List.Sublist doc2 doc := by
  have hwf := parseConfig_WF sf.data doc hp
  have hd2 := removeInvalid_eq_filter doc doc2 hwf.1 hf
  refine ⟨rewriteSong_song_eq sf doc doc2 hty hp hf, ?_, ?_⟩
  · rw [hd2]
    exact parse_render _ (WFdoc_filter doc hwf)
  · rw [hd2]
    exact List.filter_sublist doc


/-- Witness for C7 (amended) at a concrete three-section document. -/
theorem C7_rewrite_canonical_witness :
    rewriteSong { name := [97], ftype := KFNSubfileType.SONG, data := exText7,
                  length := 52, is_encrypted := false } =
      .ok { ({ name := [97], ftype := KFNSubfileType.SONG, data := exText7,
               length := 52, is_encrypted := false } : KFNSubfile) with
            data := renderConfig exDoc7f, length := (renderConfig exDoc7f).length } ∧
    parseConfig (renderConfig exDoc7f) = some exDoc7f ∧
    List.Sublist exDoc7f exDoc7 :=
  C7_rewrite_canonical _ exDoc7 exDoc7f (by decide) (by decide) (by decide)

/-- Counterexample for C7 as stated: a document whose sections are all
retained is still re-rendered differently — `id=1` becomes `id = 1` plus a
trailing blank line — so the exact textual formatting of retained sections
is not preserved, even though the parsed content is (the output re-parses
to the same document as the input). -/
theorem C7_counterexample :
    rewriteSong { name := [97], ftype := KFNSubfileType.SONG,
                  data := [91, 69, 102, 102, 49, 93, 10, 105, 100, 61, 49, 10],
                  length := 12, is_encrypted := false } =
      .ok { name := [97], ftype := KFNSubfileType.SONG,
            data := [91, 69, 102, 102, 49, 93, 10, 105, 100, 32, 61, 32, 49, 10, 10],
            length := 15, is_encrypted := false } ∧
    ([91, 69, 102, 102, 49, 93, 10, 105, 100, 32, 61, 32, 49, 10, 10] : List Nat) ≠
      [91, 69, 102, 102, 49, 93, 10, 105, 100, 61, 49, 10] ∧
    parseConfig [91, 69, 102, 102, 49, 93, 10, 105, 100, 32, 61, 32, 49, 10, 10] =
      parseConfig [91, 69, 102, 102, 49, 93, 10, 105, 100, 61, 49, 10] := by
  refine ⟨by decide, by decide, by decide⟩

/-! ### Claim C4: idempotence of unlock -/

theorem rewriteSong_idem (sf sf' : KFNSubfile) (h : rewriteSong sf = .ok sf') :
    rewriteSong sf' = .ok sf' := by
  by_cases hty : sf.ftype = KFNSubfileType.SONG
  · rw [rewriteSong, if_neg (by simp [hty])] at h
    cases hp : parseConfig sf.data with
    | none => rw [hp] at h; simp at h
    | some doc =>
        simp only [hp] at h
        cases hf : removeInvalidEffects doc with
        | error e => simp only [hf] at h; simp at h
        | ok doc2 =>
            simp only [hf, Except.ok.injEq] at h
            subst h
            have hwf := parseConfig_WF sf.data doc hp
            have hd2 := removeInvalid_eq_filter doc doc2 hwf.1 hf
            have hwfd2 : WFdoc doc2 := by rw [hd2]; exact WFdoc_filter doc hwf
            have hpar : parseConfig (renderConfig doc2) = some doc2 :=
              parse_render doc2 hwfd2
            have hkeep : ∀ s ∈ doc2, keepSec s = true := by
              rw [hd2]
              intro s hs
              exact List.of_mem_filter hs
            have hri : removeInvalidEffects doc2 = .ok doc2 :=
              removeInvalid_id doc2 hwfd2.1 hkeep
            rw [rewriteSong, if_neg (by simp [hty])]
            simp [hpar, hri]
  · rw [rewriteSong, if_pos (by simp [hty])] at h
    simp only [Except.ok.injEq] at h
    subst h
    rw [rewriteSong, if_pos (by simp [hty])]

theorem mapM_rewriteSong_idem (sfs : List KFNSubfile) :
    ∀ (sfs' : List KFNSubfile), sfs.mapM rewriteSong = .ok sfs' →
    sfs'.mapM rewriteSong = .ok sfs' := by
  induction sfs with
  | nil =>
      intro sfs' h
      simp only [List.mapM_nil, pure, Except.pure, Except.ok.injEq] at h
      subst h
      rfl
  | cons sf tl ih =>
      intro sfs' h
      rw [List.mapM_cons] at h
      cases hsf : rewriteSong sf with
      | error e => rw [hsf] at h; simp [Bind.bind, Except.bind] at h
      | ok b =>
          rw [hsf] at h
          cases htl : tl.mapM rewriteSong with
          | error e =>
              rw [htl] at h
              simp [Bind.bind, Except.bind] at h
          | ok bs =>
              rw [htl] at h
              simp only [Bind.bind, Except.bind, pure, Except.pure, Except.ok.injEq] at h
              subst h
              rw [List.mapM_cons, rewriteSong_idem sf b hsf, ih bs htl]
              rfl

theorem step1_zero (D : List Nat → List Nat → List Nat) (c : KFNFile)
    (h : assocFind c.headers FLIDtag = some (.buf zeros16)) : step1 D c = .ok c := by
  simp [step1, h]

theorem step1_flid (D : List Nat → List Nat → List Nat) (c a : KFNFile)
    (h : step1 D c = .ok a) :
    assocFind a.headers FLIDtag = some (.buf zeros16) := by
  rw [step1] at h
  split at h
  · exact absurd h (by simp)
  · rename_i v heq
    split at h
    · rename_i hz
      cases h
      rw [heq, hz]
    · split at h
      · exact absurd h (by simp)
      · split at h
        · cases h
          exact assocFind_dictInsert_self c.headers FLIDtag (.buf zeros16)
        · exact absurd h (by simp)

theorem step2_subfiles (kfn : KFNFile) : (step2 kfn).subfiles = kfn.subfiles := by
  rw [step2]
  split <;> rfl

theorem step2_find_flid (kfn : KFNFile) :
    assocFind (step2 kfn).headers FLIDtag = assocFind kfn.headers FLIDtag := by
  rw [step2]
  split
  · exact assocFind_dictInsert_ne kfn.headers RGHTtag FLIDtag (.num 0) (by decide)
  · rfl

theorem step3_inv (kfn k' : KFNFile) (h : step3 kfn = .ok k') :
    ∃ sfs, kfn.subfiles.mapM rewriteSong = .ok sfs ∧
      k' = { kfn with subfiles := sfs } := by
  cases hm : kfn.subfiles.mapM rewriteSong with
  | error e =>
      rw [step3, hm] at h
      simp [Bind.bind, Except.bind] at h
  | ok sfs =>
      rw [step3, hm] at h
      simp only [Bind.bind, Except.bind, pure, Except.pure, Except.ok.injEq] at h
      exact ⟨sfs, rfl, h.symm⟩

/--
Claim C4 (idempotence of unlock): for every Container on which unlock
succeeds, running unlock again on the result returns it unchanged — the
key is already zero so no decryption happens, the already-zeroed `RGHT`
does not error, and the already-filtered config documents lose no further
sections.
-/
theorem C4_unlock_idempotent (D : List Nat → List Nat → List Nat) (c c' : KFNFile)
    (h : unlock_kfn D c = .ok c') : unlock_kfn D c' = .ok c' := by
  obtain ⟨a, h1, h3⟩ := unlock_split D c c' h
  obtain ⟨sfs, hm, rfl⟩ := step3_inv (step2 a) c' h3
  have hflid_a : assocFind a.headers FLIDtag = some (.buf zeros16) := step1_flid D c a h1
  have hflid : assocFind ({ step2 a with subfiles := sfs } : KFNFile).headers FLIDtag =
      some (.buf zeros16) := by
    show assocFind (step2 a).headers FLIDtag = _
    rw [step2_find_flid]
    exact hflid_a
  have hs1 : step1 D { step2 a with subfiles := sfs } =
      .ok { step2 a with subfiles := sfs } := step1_zero D _ hflid
  have hs2 : step2 ({ step2 a with subfiles := sfs } : KFNFile) =
      { step2 a with subfiles := sfs } := by
    cases hr : assocFind a.headers RGHTtag with
    | none =>
        have hst2 : step2 a = a := by rw [step2, if_neg (by simp [hr])]
        have hniso : ¬ (assocFind ({ step2 a with subfiles := sfs } : KFNFile).headers
            RGHTtag).isSome = true := by
          show ¬ (assocFind (step2 a).headers RGHTtag).isSome = true
          rw [hst2, hr]
          simp
        rw [step2, if_neg hniso]
    | some v =>
        have hst2h : (step2 a).headers = dictInsert a.headers RGHTtag (.num 0) := by
          rw [step2, if_pos (by simp [hr])]
        have hfind : assocFind ({ step2 a with subfiles := sfs } : KFNFile).headers
            RGHTtag = some (.num 0) := by
          show assocFind (step2 a).headers RGHTtag = _
          rw [hst2h]
          exact assocFind_dictInsert_self a.headers RGHTtag (.num 0)
        rw [step2, if_pos (by simp [hfind])]
        have he := dictInsert_of_find_eq _ _ _ hfind
        rw [he]
  have hsfs : sfs.mapM rewriteSong = .ok sfs := mapM_rewriteSong_idem _ _ hm
  have hs3 : step3 ({ step2 a with subfiles := sfs } : KFNFile) =
      .ok { step2 a with subfiles := sfs } := by
    rw [step3]
    show (({ step2 a with subfiles := sfs } : KFNFile).subfiles.mapM rewriteSong).bind _ = _
    simp only [hsfs]
    rfl
  rw [unlock_kfn]
  show (step1 D { step2 a with subfiles := sfs }).bind _ = _
  rw [hs1]
  show step3 (step2 { step2 a with subfiles := sfs }) = _
  rw [hs2, hs3]

/-- Witness for C4: the container `exC4` unlocks to `exC4u`, and a second
unlock returns `exC4u` unchanged. -/
theorem C4_unlock_idempotent_witness : unlock_kfn exD exC4u = .ok exC4u :=
  C4_unlock_idempotent exD exC4 exC4u (by decide)

/-- Witness for C9 (amended) at a concrete 20-byte buffer: 16 bytes of
plaintext come back, 4 bytes stay buffered, and no failure occurs. -/
theorem C9_update_never_fails_witness :
    (decUpdate exD exKey [] (List.replicate 20 5)).1.length = 20 - 20 % 16 ∧
    (decUpdate exD exKey [] (List.replicate 20 5)).2 =
      (List.replicate 20 5).drop (20 - 20 % 16) ∧
    (20 % 16 = 0 → (decUpdate exD exKey [] (List.replicate 20 5)).1.length = 20) := by
  have h := C9_update_never_fails exD exKey
    (by intro b hb; simp [exD, hb]) (List.replicate 20 5)
  simpa using h

end KFN
